import Mathlib

/-!
# MinimISA: shallow embedding and verification

Shallow embedding of the MinimISA toolchain (assembler back-ends, label
resolver, Huffman opcode builder, bit-addressable memory, emulator decoder)
together with proofs and refutations of the specified properties.

Modelling conventions, used uniformly:
* Machine integers (`u64`, `i64`, `u32`, `usize`) are modelled as `Nat`/`Int`
  with explicit bounds.  Arithmetic overflow, shift amounts that reach the bit
  width, out-of-bounds indexing and division by zero are modelled as failures
  (`Option`/`Except`), matching Rust's checked (debug) semantics; `<<` on a
  signed value wraps the value two's-complement style, as Rust's `shl` does.
* Bit strings (`String`s over the alphabet `{'0','1'}` in the source) are
  modelled as `List Bool`, most significant bit first; `true` is `'1'`.
-/

/-- Fuel-driven binary-digit builder (structural recursion so that concrete
values reduce in the kernel); `natBits` below supplies enough fuel. -/
def natBitsF : Nat → Nat → List Bool
  | _, 0 => []
  | 0, _ + 1 => []
  | f + 1, n + 1 => natBitsF f ((n + 1) / 2) ++ [(n + 1) % 2 == 1]

/-- Binary digits of `n`, most significant first; empty for `0`
(the digit list produced by Rust's `format!("{:b}", n)` before its
special case for zero). -/
def natBits (n : Nat) : List Bool := natBitsF n n

theorem natBitsF_zero : ∀ f, natBitsF f 0 = []
  | 0 => rfl
  | _ + 1 => rfl

theorem natBitsF_congr : ∀ f f' n, n ≤ f → n ≤ f' → natBitsF f n = natBitsF f' n := by
  intro f
  induction f using Nat.strong_induction_on with
  | _ f ih =>
    intro f' n hf hf'
    match f, f', n with
    | f, f', 0 => rw [natBitsF_zero, natBitsF_zero]
    | 0, _, n + 1 => omega
    | _ + 1, 0, n + 1 => omega
    | f + 1, f' + 1, n + 1 =>
      show natBitsF f ((n + 1) / 2) ++ _ = natBitsF f' ((n + 1) / 2) ++ _
      have h2 : (n + 1) / 2 ≤ f := by omega
      have h2' : (n + 1) / 2 ≤ f' := by omega
      rw [ih f (by omega) f' ((n + 1) / 2) h2 h2']

/-- Rust `format!("{:b}", n)` for a nonnegative value: binary digits,
`"0"` for zero. -/
def fmtBin (n : Nat) : List Bool :=
  if n = 0 then [false] else natBits n

/-- Value of a big-endian bit string. -/
def bitsToNat (bs : List Bool) : Nat :=
  bs.foldl (fun a b => 2 * a + (if b then 1 else 0)) 0

/-- Left-pad a bit string with `false` up to length `k`
(the `while binary.len() < k { binary.insert(0, '0') }` loop). -/
def padZeros (k : Nat) (bs : List Bool) : List Bool :=
  List.replicate (k - bs.length) false ++ bs

theorem natBits_nil : natBits 0 = [] := rfl

theorem natBits_succ (n : Nat) (h : n ≠ 0) :
    natBits n = natBits (n / 2) ++ [n % 2 == 1] := by
  obtain ⟨m, rfl⟩ : ∃ m, n = m + 1 := ⟨n - 1, by omega⟩
  show natBitsF m ((m + 1) / 2) ++ _ = _
  rw [natBitsF_congr m ((m + 1) / 2) ((m + 1) / 2) (by omega) le_rfl]
  rfl

theorem bitsToNat_append_single (bs : List Bool) (b : Bool) :
    bitsToNat (bs ++ [b]) = 2 * bitsToNat bs + (if b then 1 else 0) := by
  simp [bitsToNat, List.foldl_append]

theorem bitsToNat_natBits (n : Nat) : bitsToNat (natBits n) = n := by
  induction n using Nat.strong_induction_on with
  | _ n ih =>
    by_cases h : n = 0
    · simp [h, natBits_nil, bitsToNat]
    · rw [natBits_succ n h, bitsToNat_append_single,
        ih (n / 2) (Nat.div_lt_self (Nat.pos_of_ne_zero h) (by decide))]
      have := Nat.div_add_mod n 2
      have hm : n % 2 = 0 ∨ n % 2 = 1 := Nat.mod_two_eq_zero_or_one n
      rcases hm with hm | hm <;> simp [hm] <;> omega

theorem length_natBits_le (k : Nat) : ∀ n, n < 2 ^ k → (natBits n).length ≤ k := by
  induction k with
  | zero =>
    intro n hn
    interval_cases n
    simp [natBits_nil]
  | succ k ih =>
    intro n hn
    by_cases h : n = 0
    · simp [h, natBits_nil]
    · rw [natBits_succ n h]
      have : n / 2 < 2 ^ k := by
        have h2 : n < 2 ^ k * 2 := by
          simpa [Nat.pow_succ] using hn
        exact Nat.div_lt_of_lt_mul (by omega)
      have := ih (n / 2) this
      simp [List.length_append]
      omega

theorem bitsToNat_padZeros (k : Nat) (bs : List Bool) :
    bitsToNat (padZeros k bs) = bitsToNat bs := by
  unfold padZeros bitsToNat
  rw [List.foldl_append]
  have : ∀ (m : Nat), List.foldl (fun a b => 2 * a + (if b then 1 else 0)) 0
      (List.replicate m false) = 0 := by
    intro m
    induction m with
    | zero => simp
    | succ m ih => simpa [List.replicate_succ] using ih
  rw [this]

theorem length_padZeros (k : Nat) (bs : List Bool) (h : bs.length ≤ k) :
    (padZeros k bs).length = k := by
  simp [padZeros]
  omega

/-! ## Checked 64-bit integer model -/

/-- Smallest `i64` value. -/
def i64Min : Int := -(2 ^ 63)

/-- Largest `i64` value. -/
def i64Max : Int := 2 ^ 63 - 1

/-- Errors of the assembler's bit-string builders.  `overflow` stands for a
Rust arithmetic panic (checked semantics); the other two are the `Err`
values returned by `binary_repr` itself. -/
inductive BRError where
  | notInRange
  | tooLong
  | overflow
deriving DecidableEq, Repr

/-- Checked `i64` arithmetic: fail iff the value leaves the `i64` range. -/
def chkI64 (x : Int) : Except BRError Int :=
  if i64Min ≤ x ∧ x ≤ i64Max then .ok x else .error .overflow

/-- `2i64.pow(e)`: repeated multiplication, panicking when the result leaves
the `i64` range (so it fails exactly for `63 ≤ e`). -/
def powI64 (e : Nat) : Except BRError Int :=
  if (2 : Int) ^ e ≤ i64Max then .ok ((2 : Int) ^ e) else .error .overflow

/-- Rust `format!("{:b}", n)` on an `i64`: a negative value prints as its
64-bit two's-complement pattern. -/
def fmtBinI64 (n : Int) : List Bool :=
  if 0 ≤ n then fmtBin n.toNat else fmtBin (n + 2 ^ 64).toNat

namespace BackEnd

/-- Shared tail of `CleartextBitcodeBackEnd::binary_repr`: format the
(already wrapped) value in binary, reject overlong results, left-pad to
`k` digits. -/
def finishRepr (m : Int) (k : Nat) : Except BRError (List Bool) :=
  let binary := fmtBinI64 m
  if binary.length > k then .error .tooLong else .ok (padZeros k binary)

/-- `CleartextBitcodeBackEnd::binary_repr` (back_end.rs).  For `signed`,
range-check `n` against `±2i64.pow(k-1)`, then wrap as
`(2i64.pow(k) + n) % 2i64.pow(k)`; both powers panic once `2^k` leaves the
`i64` range, and `k - 1` underflows `usize` for `k = 0`.  The wrapped value
is nonnegative, so Rust's `%` (remainder, dividend sign) agrees with
Euclidean `%` here. -/
def binary_repr (n : Int) (k : Nat) (signed : Bool) : Except BRError (List Bool) :=
  if signed then
    if k = 0 then .error .overflow
    else
      match powI64 (k - 1) with
      | .error e => .error e
      | .ok p =>
        if ¬(-p ≤ n ∧ n < p) then .error .notInRange
        else
          match powI64 k with
          | .error e => .error e
          | .ok q =>
            match chkI64 (q + n) with
            | .error e => .error e
            | .ok s => finishRepr (s % q) k
  else finishRepr n k

/-- `NB_BIT_REG` as declared in back_end.rs (`8`, commented "placeholder");
`enums.rs` and `myasm.rs` both declare the register width as `3`. -/
def NB_BIT_REG : Nat := 8

/-- `CleartextBitcodeBackEnd::bin_register`. -/
def bin_register (val : Nat) : Except BRError (List Bool) :=
  binary_repr (val : Int) NB_BIT_REG false

/-- `CleartextBitcodeBackEnd::bin_uconstant` (back_end.rs).  Note the
source has no `111` + 64-bit branch: every value above `4294967295`
falls through to `Err("Invalid constant: Not in range")`. -/
def bin_uconstant (val : Nat) : Except BRError (List Bool) :=
  if val ≤ 1 then
    (binary_repr (val : Int) 1 false).map (fun bs => [false] ++ bs)
  else if val ≤ 255 then
    (binary_repr (val : Int) 8 false).map (fun bs => [true, false] ++ bs)
  else if val ≤ 4294967295 then
    (binary_repr (val : Int) 32 false).map (fun bs => [true, true, false] ++ bs)
  else .error .notInRange

end BackEnd

theorem bitsToNat_fmtBin (n : Nat) : bitsToNat (fmtBin n) = n := by
  unfold fmtBin
  by_cases h : n = 0
  · simp [h, bitsToNat]
  · simp [h, bitsToNat_natBits]

theorem length_fmtBin_le (k n : Nat) (hk : 1 ≤ k) (hn : n < 2 ^ k) :
    (fmtBin n).length ≤ k := by
  unfold fmtBin
  by_cases h : n = 0
  · simp [h]; omega
  · simpa [h] using length_natBits_le k n hn

deriving instance DecidableEq for Except


/-- Helper: the success case of the signed `binary_repr` for widths `1..62`. -/
theorem binary_repr_signed_ok (n : Int) (k : Nat) (hk1 : 1 ≤ k) (hk2 : k ≤ 62)
    (h1 : -(2 ^ (k - 1) : Int) ≤ n) (h2 : n < 2 ^ (k - 1)) :
    ∃ bs, BackEnd.binary_repr n k true = .ok bs ∧ bs.length = k ∧
      (bitsToNat bs : Int) = n % 2 ^ k := by
  have hk0 : ¬(k = 0) := by omega
  have hmax : (2 : Int) ^ 62 ≤ i64Max := by norm_num [i64Max]
  have hp1 : (2 : Int) ^ (k - 1) ≤ i64Max :=
    le_trans (pow_le_pow_right (by norm_num) (by omega)) hmax
  have hpk : (2 : Int) ^ k ≤ i64Max :=
    le_trans (pow_le_pow_right (by norm_num) (by omega)) hmax
  have hq0 : (0 : Int) < 2 ^ k := by positivity
  have hhalf : (2 : Int) ^ (k - 1) ≤ 2 ^ k := pow_le_pow_right (by norm_num) (by omega)
  have hlo : i64Min ≤ 2 ^ k + n := by
    have : (0 : Int) ≤ 2 ^ k + n := by nlinarith
    simp [i64Min]; nlinarith
  have hhi : 2 ^ k + n ≤ i64Max := by
    have h62 : (2 : Int) ^ k ≤ 2 ^ 62 := pow_le_pow_right (by norm_num) (by omega)
    have : 2 ^ k + n < 2 ^ k + 2 ^ k := by nlinarith
    have : 2 ^ k + n < 2 ^ 63 := by
      calc 2 ^ k + n < 2 ^ k + 2 ^ k := by nlinarith
        _ ≤ 2 ^ 62 + 2 ^ 62 := by nlinarith
        _ ≤ 2 ^ 63 := by norm_num
    simp [i64Max]; omega
  have hmod : ((2 : Int) ^ k + n) % 2 ^ k = n % 2 ^ k := by
    rw [Int.add_comm]
    simpa using Int.add_mul_emod_self_left (a := n) (b := (2 : Int) ^ k) (c := 1)
  have hmnn : (0 : Int) ≤ n % 2 ^ k := Int.emod_nonneg n (by positivity)
  have hmlt : n % 2 ^ k < 2 ^ k := Int.emod_lt_of_pos n hq0
  have htn : (n % 2 ^ k).toNat < 2 ^ k := by
    have := hmlt
    zify
    rwa [Int.toNat_of_nonneg hmnn]
  have hlen : (fmtBinI64 (n % 2 ^ k)).length ≤ k := by
    rw [fmtBinI64, if_pos hmnn]
    exact length_fmtBin_le k _ hk1 htn
  have hcond : ¬¬(-(2 ^ (k - 1) : Int) ≤ n ∧ n < 2 ^ (k - 1)) := not_not_intro ⟨h1, h2⟩
  refine ⟨padZeros k (fmtBinI64 (n % 2 ^ k)), ?_, ?_, ?_⟩
  · simp only [BackEnd.binary_repr, if_true, if_neg hk0, powI64, if_pos hp1, if_pos hpk,
      if_neg hcond, chkI64,
      if_pos (show i64Min ≤ 2 ^ k + n ∧ 2 ^ k + n ≤ i64Max from ⟨hlo, hhi⟩),
      BackEnd.finishRepr, hmod]
    rw [if_neg (by omega : ¬(fmtBinI64 (n % 2 ^ k)).length > k)]
  · exact length_padZeros k _ hlen
  · rw [bitsToNat_padZeros, fmtBinI64, if_pos hmnn, bitsToNat_fmtBin,
      Int.toNat_of_nonneg hmnn]

/-- C3: `binary_repr(n, k, signed=true)` on the two's-complement contract.
Amended: the contract holds for widths `1 ≤ k ≤ 62`.  In range it returns the
`k`-bit big-endian two's-complement representation of `n` (a `k`-bit string
whose value is `n mod 2^k`), out of range it returns the out-of-range error.
(For `k ≥ 63` the source's `2i64.pow` overflows, see the counterexample.) -/
theorem claimC3_binary_repr_signed (n : Int) (k : Nat) (hk1 : 1 ≤ k) (hk2 : k ≤ 62) :
    (-(2 ^ (k - 1) : Int) ≤ n ∧ n < 2 ^ (k - 1) →
      ∃ bs, BackEnd.binary_repr n k true = .ok bs ∧ bs.length = k ∧
        (bitsToNat bs : Int) = n % 2 ^ k) ∧
    (¬(-(2 ^ (k - 1) : Int) ≤ n ∧ n < 2 ^ (k - 1)) →
      BackEnd.binary_repr n k true = .error .notInRange) := by
  constructor
  · rintro ⟨h1, h2⟩
    exact binary_repr_signed_ok n k hk1 hk2 h1 h2
  · intro h
    have hk0 : ¬(k = 0) := by omega
    have hmax : (2 : Int) ^ 62 ≤ i64Max := by norm_num [i64Max]
    have hp1 : (2 : Int) ^ (k - 1) ≤ i64Max :=
      le_trans (pow_le_pow_right (by norm_num) (by omega)) hmax
    simp only [BackEnd.binary_repr, if_true, if_neg hk0, powI64, if_pos hp1, if_pos h]

/-- C3 witness: the contract applied at `binary_repr(-1, 8, true)`. -/
theorem claimC3_witness :
    ∃ bs, BackEnd.binary_repr (-1) 8 true = .ok bs ∧ bs.length = 8 ∧
      (bitsToNat bs : Int) = (-1) % 2 ^ 8 :=
  (claimC3_binary_repr_signed (-1) 8 (by norm_num) (by norm_num)).1 (by norm_num)

/-- C3 counterexample: the claim quantifies over every width `k`, but at
`k = 64` the in-range value `0` (whose 64-bit representation the claim
promises) makes the source overflow (`2i64.pow(63)` leaves the `i64` range)
instead of returning the 64-zero string. -/
theorem claimC3_cex :
    BackEnd.binary_repr 0 64 true = .error .overflow ∧
    (-(2 ^ (64 - 1) : Int) ≤ 0 ∧ (0 : Int) < 2 ^ (64 - 1)) :=
  ⟨by decide, by norm_num⟩

/-- C4: evaluation of the unsigned-constant encoder.  The three low tiers
behave as specified (`encode_uconst(0)="00"`, `encode_uconst(2)="1000000010"`,
`encode_uconst(256)="110" + 32-bit 0x100`), but the claimed `111` + 64-bit
tier is absent from `bin_uconstant`: at the failing input `2^32` the encoder
returns the range error instead of `"111"` plus a 64-bit payload. -/
theorem claimC4_bin_uconstant :
    BackEnd.bin_uconstant 0 = .ok [false, false] ∧
    BackEnd.bin_uconstant 2 =
      .ok [true, false, false, false, false, false, false, false, true, false] ∧
    BackEnd.bin_uconstant 256 =
      .ok ([true, true, false] ++
        (List.replicate 23 false ++ [true] ++ List.replicate 8 false)) ∧
    BackEnd.bin_uconstant 4294967296 = .error .notInRange := by
  refine ⟨by decide, by decide, ?_, by decide⟩
  decide

/-! ## Default opcode table (compileuh.rs `DEFAULT_OPCODE`) -/

/-- Bit `'0'`. -/
def b0 : Bool := false

/-- Bit `'1'`. -/
def b1 : Bool := true

/-- Decide whether bit-string `a` is a prefix of bit-string `b`. -/
def pfxOfB : List Bool → List Bool → Bool
  | [], _ => true
  | _ :: _, [] => false
  | a :: as, b :: bs => (a == b) && pfxOfB as bs

/-- The fixed opcode table of compileuh.rs, in source order.  (myasm.rs
declares the same opcodes, with `reserved3`-style entries named
`rese1`/`rese2`/`rese3`.) -/
def DEFAULT_OPCODE : List (String × List Bool) := [
  ("add2",      [b0, b0, b0, b0]),
  ("add2i",     [b0, b0, b0, b1]),
  ("sub2",      [b0, b0, b1, b0]),
  ("sub2i",     [b0, b0, b1, b1]),
  ("cmp",       [b0, b1, b0, b0]),
  ("cmpi",      [b0, b1, b0, b1]),
  ("let",       [b0, b1, b1, b0]),
  ("leti",      [b0, b1, b1, b1]),
  ("shift",     [b1, b0, b0, b0]),
  ("readze",    [b1, b0, b0, b1, b0]),
  ("pop",       [b1, b0, b0, b1, b0, b0, b1]),
  ("readse",    [b1, b0, b0, b1, b1]),
  ("jump",      [b1, b0, b1, b0]),
  ("jumpif",    [b1, b0, b1, b1]),
  ("or2",       [b1, b1, b0, b0, b0, b0]),
  ("or2i",      [b1, b1, b0, b0, b0, b1]),
  ("and2",      [b1, b1, b0, b0, b1, b0]),
  ("and2i",     [b1, b1, b0, b0, b1, b1]),
  ("write",     [b1, b1, b0, b1, b0, b0]),
  ("call",      [b1, b1, b0, b1, b0, b1]),
  ("setctr",    [b1, b1, b0, b1, b1, b0]),
  ("getctr",    [b1, b1, b0, b1, b1, b1]),
  ("push",      [b1, b1, b1, b0, b0, b0, b0]),
  ("return",    [b1, b1, b1, b0, b0, b0, b1]),
  ("add3",      [b1, b1, b1, b0, b0, b1, b0]),
  ("add3i",     [b1, b1, b1, b0, b0, b1, b1]),
  ("sub3",      [b1, b1, b1, b0, b1, b0, b0]),
  ("sub3i",     [b1, b1, b1, b0, b1, b0, b1]),
  ("and3",      [b1, b1, b1, b0, b1, b1, b0]),
  ("and3i",     [b1, b1, b1, b0, b1, b1, b1]),
  ("or3",       [b1, b1, b1, b1, b0, b0, b0]),
  ("or3i",      [b1, b1, b1, b1, b0, b0, b1]),
  ("xor3",      [b1, b1, b1, b1, b0, b1, b0]),
  ("xor3i",     [b1, b1, b1, b1, b0, b1, b1]),
  ("asr3",      [b1, b1, b1, b1, b1, b0, b0]),
  ("sleep",     [b1, b1, b1, b1, b1, b0, b1]),
  ("rand",      [b1, b1, b1, b1, b1, b1, b0]),
  ("reserved3", [b1, b1, b1, b1, b1, b1, b1])]

/-- C2 counterexample: two distinct entries of the default table where one
opcode is a prefix of the other: `readze = 10010` is a proper prefix of
`pop = 1001001`, so the table is not prefix-free as claimed. -/
theorem claimC2_cex :
    ("readze", [b1, b0, b0, b1, b0]) ∈ DEFAULT_OPCODE ∧
    ("pop", [b1, b0, b0, b1, b0, b0, b1]) ∈ DEFAULT_OPCODE ∧
    "readze" ≠ "pop" ∧
    pfxOfB [b1, b0, b0, b1, b0] [b1, b0, b0, b1, b0, b0, b1] = true := by
  refine ⟨?_, ?_, by decide, by decide⟩ <;> simp [DEFAULT_OPCODE]

/-- C2 (amended): the default opcode table is prefix-free except for the
single ordered pair `(readze, pop)`: for any two distinct entries, the
first one's opcode is a prefix of the second one's exactly when the first
is `readze` and the second is `pop`. -/
theorem claimC2_default_opcode (i j : Fin DEFAULT_OPCODE.length) (h : i ≠ j) :
    pfxOfB (DEFAULT_OPCODE.get i).2 (DEFAULT_OPCODE.get j).2 = true ↔
      (DEFAULT_OPCODE.get i).1 = "readze" ∧ (DEFAULT_OPCODE.get j).1 = "pop" := by
  revert h
  revert i j
  decide

/-- C2 witness: the amended statement applied at the `readze`/`pop` pair. -/
theorem claimC2_witness :
    pfxOfB (DEFAULT_OPCODE.get ⟨9, by decide⟩).2 (DEFAULT_OPCODE.get ⟨10, by decide⟩).2 = true ↔
      (DEFAULT_OPCODE.get ⟨9, by decide⟩).1 = "readze" ∧
      (DEFAULT_OPCODE.get ⟨10, by decide⟩).1 = "pop" :=
  claimC2_default_opcode ⟨9, by decide⟩ ⟨10, by decide⟩ (by decide)

namespace Emu

/-- `sign_extend` (emu/include/util.rs): `((x << shift) as i64) >> shift`
with `shift = 64 - n`.  The left shift on `u64` discards overflowing bits
(`% 2^64`); the cast reinterprets as two's complement; `>>` on `i64` is an
arithmetic shift, i.e. flooring division by `2^shift`.  For `n = 0` the
shift amount reaches the bit width and for `n > 64` the `u32` subtraction
`64 - n` underflows; both are failures. -/
def sign_extend (x : Nat) (n : Nat) : Option Int :=
  if n = 0 ∨ 64 < n then none
  else
    let shift : Nat := 64 - n
    let y : Nat := x * 2 ^ shift % 2 ^ 64
    let s : Int := if y < 2 ^ 63 then (y : Int) else (y : Int) - 2 ^ 64
    some (Int.fdiv s ((2 : Int) ^ shift))

end Emu

/-- C10: for `1 ≤ n ≤ 64` and `x < 2^n`, `sign_extend(x, n)` returns a value
congruent to `x` modulo `2^n` lying in `[-2^(n-1), 2^(n-1))`, and is the
identity when the top bit of the `n`-bit field is clear. -/
theorem claimC10_sign_extend (x n : Nat) (h1 : 1 ≤ n) (h2 : n ≤ 64) (hx : x < 2 ^ n) :
    ∃ r : Int, Emu.sign_extend x n = some r ∧
      r % ((2 : Int) ^ n) = (x : Int) ∧
      -((2 : Int) ^ (n - 1)) ≤ r ∧ r < (2 : Int) ^ (n - 1) ∧
      (x < 2 ^ (n - 1) → r = (x : Int)) := by
  have hn0 : ¬(n = 0 ∨ 64 < n) := by omega
  have hsplit : (2 : Nat) ^ n = 2 ^ (n - 1) * 2 := by
    rw [← Nat.pow_succ]
    congr 1
    omega
  have hfull : 2 ^ (n - 1) * 2 ^ (64 - n) = 2 ^ 63 := by
    rw [← Nat.pow_add]
    congr 1
    omega
  have hfull64 : 2 ^ n * 2 ^ (64 - n) = 2 ^ 64 := by
    rw [← Nat.pow_add]
    congr 1
    omega
  have hpos : 0 < 2 ^ (64 - n) := Nat.pos_pow_of_pos _ (by norm_num)
  have hylt : x * 2 ^ (64 - n) < 2 ^ 64 := by
    calc x * 2 ^ (64 - n) < 2 ^ n * 2 ^ (64 - n) := (Nat.mul_lt_mul_right hpos).mpr hx
      _ = 2 ^ 64 := hfull64
  have hymod : x * 2 ^ (64 - n) % 2 ^ 64 = x * 2 ^ (64 - n) := Nat.mod_eq_of_lt hylt
  have hxmod : (x : Int) % (2 : Int) ^ n = (x : Int) := by
    apply Int.emod_eq_of_lt (by positivity)
    exact_mod_cast hx
  have hxnn : (0 : Int) ≤ (x : Int) := Int.natCast_nonneg x
  have hp1pos : (0 : Int) < (2 : Int) ^ (n - 1) := by positivity
  by_cases hc : x < 2 ^ (n - 1)
  · -- top bit clear: the identity case
    have hy63 : x * 2 ^ (64 - n) % 2 ^ 64 < 2 ^ 63 := by
      rw [hymod]
      calc x * 2 ^ (64 - n) < 2 ^ (n - 1) * 2 ^ (64 - n) := (Nat.mul_lt_mul_right hpos).mpr hc
        _ = 2 ^ 63 := hfull
    refine ⟨(x : Int), ?_, hxmod, by omega, by exact_mod_cast hc, fun _ => rfl⟩
    simp only [Emu.sign_extend, if_neg hn0, if_pos hy63]
    congr 1
    have hcast : ((x * 2 ^ (64 - n) % 2 ^ 64 : Nat) : Int) = (x : Int) * (2 : Int) ^ (64 - n) := by
      rw [hymod]; push_cast; ring
    rw [hcast, Int.mul_fdiv_cancel _ (by positivity)]
  · -- top bit set: subtract 2^n
    push_neg at hc
    have hy63 : ¬(x * 2 ^ (64 - n) % 2 ^ 64 < 2 ^ 63) := by
      rw [hymod]
      push_neg
      calc (2 : Nat) ^ 63 = 2 ^ (n - 1) * 2 ^ (64 - n) := hfull.symm
        _ ≤ x * 2 ^ (64 - n) := Nat.mul_le_mul_right _ hc
    have hsplitI : ((2 : Int) ^ (n - 1)) * 2 = (2 : Int) ^ n := by exact_mod_cast hsplit.symm
    have hc' : (2 : Int) ^ (n - 1) ≤ (x : Int) := by exact_mod_cast hc
    have hx' : (x : Int) < (2 : Int) ^ n := by exact_mod_cast hx
    refine ⟨(x : Int) - 2 ^ n, ?_, ?_, by nlinarith, by nlinarith, fun h => by omega⟩
    · simp only [Emu.sign_extend, if_neg hn0, if_neg hy63]
      congr 1
      have heq : ((x * 2 ^ (64 - n) % 2 ^ 64 : Nat) : Int) - 2 ^ 64 =
          ((x : Int) - 2 ^ n) * (2 : Int) ^ (64 - n) := by
        rw [hymod]
        have h64 : ((2 : Int) ^ n) * (2 : Int) ^ (64 - n) = (2 : Int) ^ 64 := by
          exact_mod_cast hfull64
        push_cast
        nlinarith [h64]
      rw [heq, Int.mul_fdiv_cancel _ (by positivity)]
    · rw [Int.sub_emod, Int.emod_self, sub_zero, hxmod]
      exact hxmod

/-- C10 witness: `sign_extend(0b1111, 4) = -1`. -/
theorem claimC10_witness :
    ∃ r : Int, Emu.sign_extend 15 4 = some r ∧
      r % ((2 : Int) ^ 4) = (15 : Int) ∧
      -((2 : Int) ^ (4 - 1)) ≤ r ∧ r < (2 : Int) ^ (4 - 1) ∧
      (15 < 2 ^ (4 - 1) → r = (15 : Int)) :=
  claimC10_sign_extend 15 4 (by norm_num) (by norm_num) (by norm_num)

namespace Emu

/-- The emulator's bit-addressable memory (emu/include/memory.rs): total
size, the four segment fields, and the backing vector of 64-bit words. -/
structure Memory where
  memsize : Nat
  text : Nat
  stack : Nat
  data : Nat
  vram : Nat
  mem : List Nat

/-- Bitwise complement `!x` of a `u64`. -/
def u64not (x : Nat) : Nat := x ^^^ (2 ^ 64 - 1)

/-- `Memory::read` (emu/include/memory.rs).  The result is the word shifted
right by `64 - n - bit_pos`; note the source applies no mask, so every bit
of the word lying before `bit_pos` also lands in the result.  The `usize`
shift amount underflows when `bit_pos + n > 64`, and the shift amount
reaches 64 when `n + bit_pos = 0`; both panic (modelled as `none`), making
the source's cross-word branch unreachable. -/
def Memory.read (m : Memory) (address n : Nat) : Option Nat :=
  if n ≤ 64 then
    let bit_pos := address % 64
    let word_index := address / 64
    if n + bit_pos ≤ 64 then
      if n + bit_pos = 0 then none
      else
        match m.mem.get? word_index with
        | some w => some (w >>> (64 - n - bit_pos))
        | none => none
    else none
  else none

/-- `Memory::write` (emu/include/memory.rs).  Clears the `n`-bit field at
`bit_pos` inside word `address / 64` and ors `value & mask` into it.  The
mask `(1u64 << n) - 1` panics at `n = 64`; `64 - n - bit_pos` underflows
when `bit_pos + n > 64` (so the source's second-word branch is
unreachable) and its shift panics when `n + bit_pos = 0`. -/
def Memory.write (m : Memory) (address value n : Nat) : Option Memory :=
  if n ≤ 64 then
    let bit_pos := address % 64
    let word_index := address / 64
    if n < 64 then
      let mask := 2 ^ n - 1
      if n + bit_pos ≤ 64 then
        if n + bit_pos = 0 then none
        else
          match m.mem.get? word_index with
          | some w =>
            let w' := w &&& u64not (mask <<< (64 - n - bit_pos)) |||
              (value &&& mask) <<< (64 - n - bit_pos)
            some { m with mem := m.mem.set word_index w' }
          | none => none
      else none
    else none
  else none

end Emu

/-- C7 counterexample: starting from a zeroed one-word memory, write bit `1`
at address 0, then write `v = 5` on `n = 8` bits at address 1 and read 8
bits back at address 1: the result is `261`, not the low 8 bits of `5` —
the unmasked shift in `Memory::read` drags the bit at address 0 into the
returned value. -/
theorem claimC7_cex :
    ((Emu.Memory.write ⟨64, 64, 0, 0, 0, [0]⟩ 0 1 1).bind fun m1 =>
      (Emu.Memory.write m1 1 5 8).bind fun m2 =>
        Emu.Memory.read m2 1 8) = some 261 ∧ (261 : Nat) ≠ 5 % 2 ^ 8 := by
  constructor
  · decide
  · decide

/-- C7 (amended): for a field of `1 ≤ n < 64` bits that does not cross a
word boundary (`n + a % 64 ≤ 64`) inside the backing vector, writing `v`
then reading at the same bit address returns a value *congruent to* `v`
modulo `2^n` — the low `n` bits of `v` — possibly with the word's bits
preceding the field shifted in above bit `n` (exactly the low `n` bits
when those bits are zero, e.g. on a zeroed word). -/
theorem claimC7_write_read (m : Emu.Memory) (a v n : Nat) (h1 : 1 ≤ n) (h2 : n < 64)
    (h3 : n + a % 64 ≤ 64) (h4 : a / 64 < m.mem.length) :
    ∃ m', Emu.Memory.write m a v n = some m' ∧
      ∃ r, Emu.Memory.read m' a n = some r ∧ r % 2 ^ n = v % 2 ^ n := by
  obtain ⟨w, hw⟩ : ∃ w, m.mem.get? (a / 64) = some w := ⟨_, List.get?_eq_get h4⟩
  refine ⟨{m with mem := m.mem.set (a / 64) (w &&& Emu.u64not ((2 ^ n - 1) <<< (64 - n - a % 64)) ||| (v &&& (2 ^ n - 1)) <<< (64 - n - a % 64))}, ?_, ?_⟩
  · simp only [Emu.Memory.write, if_pos (by omega : n ≤ 64), if_pos h2, if_pos h3,
      if_neg (by omega : ¬(n + a % 64 = 0)), hw]
  · refine ⟨(w &&& Emu.u64not ((2 ^ n - 1) <<< (64 - n - a % 64)) |||
        (v &&& (2 ^ n - 1)) <<< (64 - n - a % 64)) >>> (64 - n - a % 64), ?_, ?_⟩
    · have hlen : a / 64 < (m.mem.set (a / 64)
          (w &&& Emu.u64not ((2 ^ n - 1) <<< (64 - n - a % 64)) |||
            (v &&& (2 ^ n - 1)) <<< (64 - n - a % 64))).length := by
        simpa using h4
      simp only [Emu.Memory.read, if_pos (by omega : n ≤ 64), if_pos h3,
        if_neg (by omega : ¬(n + a % 64 = 0)),
        List.get?_set_eq_of_lt _ h4]
    · apply Nat.eq_of_testBit_eq
      intro i
      rw [Nat.testBit_mod_two_pow, Nat.testBit_mod_two_pow]
      by_cases hi : i < n
      · have hsi : 64 - n - a % 64 + i < 64 := by omega
        simp only [hi, decide_eq_true_eq, Bool.true_and]
        rw [Nat.testBit_shiftRight]
        simp only [Emu.u64not, Nat.testBit_lor, Nat.testBit_land, Nat.testBit_xor,
          Nat.testBit_shiftLeft, Nat.testBit_two_pow_sub_one]
        have e1 : 64 - n - a % 64 + i - (64 - n - a % 64) = i := by omega
        simp only [e1, Nat.le_add_right, decide_eq_true_eq, hi, hsi, Bool.true_and,
          Bool.and_true, Bool.bne_true, Bool.and_not_self]
        simp
      · simp [hi]

/-- C7 witness: write `5` on 8 bits at address 0 of a zeroed one-word
memory, read it back. -/
theorem claimC7_witness :
    ∃ m', Emu.Memory.write ⟨64, 64, 0, 0, 0, [0]⟩ 0 5 8 = some m' ∧
      ∃ r, Emu.Memory.read m' 0 8 = some r ∧ r % 2 ^ 8 = 5 % 2 ^ 8 :=
  claimC7_write_read ⟨64, 64, 0, 0, 0, [0]⟩ 0 5 8 (by norm_num) (by norm_num)
    (by norm_num) (by simp)

/-- C9: a successful `Memory::write(address, value, n)` changes at most the
backing words at indices `address / 64` and `address / 64 + 1` (in fact only
the former, since the cross-word path cannot complete), and leaves the
`memsize`, `text`, `stack`, `data` and `vram` fields and the vector length
unchanged. -/
theorem claimC9_write_frame (m m' : Emu.Memory) (a v n : Nat)
    (h : Emu.Memory.write m a v n = some m') :
    m'.memsize = m.memsize ∧ m'.text = m.text ∧ m'.stack = m.stack ∧
    m'.data = m.data ∧ m'.vram = m.vram ∧ m'.mem.length = m.mem.length ∧
    ∀ k, k ≠ a / 64 → k ≠ a / 64 + 1 → m'.mem.get? k = m.mem.get? k := by
  simp only [Emu.Memory.write] at h
  split at h
  · split at h
    · split at h
      · split at h
        · exact absurd h (by simp)
        · split at h
          · rename_i w hw
            rw [Option.some.injEq] at h
            subst h
            refine ⟨rfl, rfl, rfl, rfl, rfl, by simp, ?_⟩
            intro k hk1 _
            exact List.get?_set_ne _ _ (fun hh => hk1 hh.symm)
          · exact absurd h (by simp)
      · exact absurd h (by simp)
    · exact absurd h (by simp)
  · exact absurd h (by simp)

/-- C9 witness: the frame condition at a concrete write. -/
theorem claimC9_witness :
    (⟨64, 64, 0, 0, 0, [0, 7]⟩ : Emu.Memory).memsize = 64 ∧
    ∀ k, k ≠ 0 → k ≠ 1 →
      ((Emu.Memory.write ⟨64, 64, 0, 0, 0, [0, 7]⟩ 0 1 1).getD ⟨0, 0, 0, 0, 0, []⟩).mem.get? k =
        ([0, 7] : List Nat).get? k := by
  have h : Emu.Memory.write ⟨64, 64, 0, 0, 0, [0, 7]⟩ 0 1 1 =
      some ⟨64, 64, 0, 0, 0, [2 ^ 63, 7]⟩ := by rfl
  have := claimC9_write_frame ⟨64, 64, 0, 0, 0, [0, 7]⟩ ⟨64, 64, 0, 0, 0, [2 ^ 63, 7]⟩ 0 1 1 h
  refine ⟨rfl, ?_⟩
  intro k hk0 hk1
  rw [h]
  exact this.2.2.2.2.2.2 k (by simpa using hk0) (by simpa using hk1)

/-! ## Assembler line model and the cleartext back-end -/

/-- Pipeline-level errors (panicking map lookups and indexing, propagated
`binary_repr` failures, resolver panics, fuel exhaustion of the modelled
fixpoint loop). -/
inductive AsmErr where
  | notFound
  | repr (e : BRError)
  | undefinedLabel
  | jumpTooFar
  | overflow
  | typeConfusion
deriving DecidableEq, Repr

/-- back_end.rs `ValueType`: the cleartext encoder distinguishes only
registers from everything else. -/
inductive VT where
  | Register
  | Other
deriving DecidableEq, Repr

/-- An operand value (enums.rs `Value`). -/
structure Value where
  typ : VT
  raw_value : Nat
deriving DecidableEq, Repr

/-- An instruction line (enums.rs `Line`; the position fields `linenumber`
and `filename` are not consulted by any embedded function and are
omitted). -/
structure Line where
  funcname : String
  typed_args : List Value
deriving DecidableEq, Repr

/-- One space-separated token of a cleartext packet: either a bit string or
a decimal rendering (`raw_value.to_string()`) of a non-register operand. -/
inductive PacketTok where
  | bits (bs : List Bool)
  | rawDec (v : Nat)
deriving DecidableEq, Repr

/-- Character count of a token once whitespace is stripped. -/
def tokLen : PacketTok → Nat
  | .bits bs => bs.length
  | .rawDec v => (Nat.toDigits 10 v).length

/-- `HashMap::get` on an opcode table. -/
def lookupTree (tree : List (String × List Bool)) (name : String) : Option (List Bool) :=
  (tree.find? (fun e => e.1 == name)).map (·.2)

/-- The bits of a packet, when every token is a bit string (binary mode
strips the spaces and parses the rest as base-2 digits, which fails on a
decimal token). -/
def packetBits : List PacketTok → Option (List Bool)
  | [] => some []
  | .bits bs :: t => (packetBits t).map (bs ++ ·)
  | .rawDec _ :: t => none

namespace BackEnd

/-- `CleartextBitcodeBackEnd::handle_line`: the opcode looked up in the
table, then each operand — `bin_register` for registers, the decimal
string for anything else. -/
def handle_line (tree : List (String × List Bool)) (line : Line) :
    Except AsmErr (List PacketTok) := do
  let opcode ← match lookupTree tree line.funcname with
    | some bs => pure bs
    | none => throw AsmErr.notFound
  let args ← line.typed_args.mapM (fun arg =>
    if arg.typ = VT.Register then
      match bin_register arg.raw_value with
      | .ok bs => pure (PacketTok.bits bs)
      | .error e => throw (AsmErr.repr e)
    else pure (PacketTok.rawDec arg.raw_value))
  pure (PacketTok.bits opcode :: args)

end BackEnd

/-! ## The subject VM (subject/simu.src/processor.rs) -/

namespace Simu

/-- `Memory` of the subject simulator: backing words and the four counters. -/
structure Memory where
  m : List Nat
  counter : List Nat
deriving DecidableEq, Repr

/-- `Memory::read_bit` — the source is a stub that returns `0` for every
address, so the decoder never sees the loaded program. -/
def Memory.read_bit (_mem : Memory) (_pc : Nat) : Nat := 0

/-- `Processor` state: program counter, the other three counters, eight
32-bit registers, and the three flags. -/
structure Processor where
  pc : Nat
  sp : Nat
  a1 : Nat
  a2 : Nat
  r : List Nat
  zflag : Bool
  cflag : Bool
  nflag : Bool
deriving DecidableEq, Repr

/-- `read_bit_from_pc`: shift the bit read at `pc` into `var`, advance
`pc`. -/
def readBitFromPc (mem : Memory) (p : Processor) (var : Nat) : Processor × Nat :=
  ({ p with pc := p.pc + 1 }, var * 2 + mem.read_bit p.pc)

/-- `read_reg_from_pc`: three bits. -/
def readRegFromPc (mem : Memory) (p : Processor) : Processor × Nat :=
  let s1 := readBitFromPc mem p 0
  let s2 := readBitFromPc mem s1.1 s1.2
  readBitFromPc mem s2.1 s2.2

/-- `read_size_from_pc`: two bits. -/
def readSizeFromPc (mem : Memory) (p : Processor) : Processor × Nat :=
  let s1 := readBitFromPc mem p 0
  readBitFromPc mem s1.1 s1.2

/-- `read_shiftval_from_pc`: seven bits. -/
def readShiftvalFromPc (mem : Memory) (p : Processor) : Processor × Nat :=
  let s1 := readBitFromPc mem p 0
  let s2 := readBitFromPc mem s1.1 s1.2
  let s3 := readBitFromPc mem s2.1 s2.2
  let s4 := readBitFromPc mem s3.1 s3.2
  let s5 := readBitFromPc mem s4.1 s4.2
  let s6 := readBitFromPc mem s5.1 s5.2
  readBitFromPc mem s6.1 s6.2

/-- The payload loops of `read_const_from_pc` / `read_addr_from_pc`:
`count` bits shifted into `var`, wrapping at the given power of two
(`u64` for constants, `u32` for addresses). -/
def readBitsLoop (mem : Memory) (modulus : Nat) : Nat → Processor → Nat → Processor × Nat
  | 0, p, var => (p, var)
  | k + 1, p, var =>
    readBitsLoop mem modulus k { p with pc := p.pc + 1 }
      (var * 2 % modulus + mem.read_bit p.pc)

/-- `read_const_from_pc`: the self-describing header (`0`, `10`, `110`,
`111`) selects a 1-, 8-, 32- or 64-bit payload. -/
def readConstFromPc (mem : Memory) (p : Processor) : Processor × Nat :=
  let h1 := readBitFromPc mem p 0
  if h1.2 = 0 then readBitsLoop mem (2 ^ 64) 1 h1.1 0
  else
    let h2 := readBitFromPc mem h1.1 h1.2
    if h2.2 = 2 then readBitsLoop mem (2 ^ 64) 8 h2.1 0
    else
      let h3 := readBitFromPc mem h2.1 h2.2
      if h3.2 = 6 then readBitsLoop mem (2 ^ 64) 32 h3.1 0
      else readBitsLoop mem (2 ^ 64) 64 h3.1 0

/-- `read_addr_from_pc`: header-selected 8/16/32/64-bit payload into a
`u32`, then manual sign extension up to `WORDSIZE = 32` bits.  For the
64-bit width the sign-bit shift `var >> 63` overflows the `u32` shift
amount, a failure. -/
def readAddrFromPc (mem : Memory) (p : Processor) : Option (Processor × Nat) :=
  let h1 := readBitFromPc mem p 0
  let sized : Processor × Nat × Nat :=
    if h1.2 = 0 then (h1.1, 8, 0)
    else
      let h2 := readBitFromPc mem h1.1 h1.2
      if h2.2 = 2 then (h2.1, 16, 0)
      else
        let h3 := readBitFromPc mem h2.1 h2.2
        if h3.2 = 6 then (h3.1, 32, 0) else (h3.1, 64, 0)
  let size := sized.2.1
  let loop := readBitsLoop mem (2 ^ 32) size sized.1 0
  if 32 ≤ size - 1 then none
  else
    let sign := loop.2 >>> (size - 1) &&& 1
    let ext := (List.range 32).foldl
      (fun v i => if size ≤ i then v + sign <<< i else v) loop.2
    some (loop.1, ext)

/-- `Processor::von_neumann_step` (subject/simu.src/processor.rs): read a
4-bit opcode and dispatch.  Only `add2`, `add2i`, `jump` and `shift` have
handlers; `0xc/0xd` and `0xe/0xf` read the extra opcode bits (with a stub
`handle_write_operation` for `110100`) and fall through; everything else is
ignored.  Flag updates follow the source's `manage_flags` discipline.
`u32` additions are checked; `u32` shifts fail on amounts `≥ 32` or on the
negative amount `shiftval - 1` when `shiftval = 0`. -/
def von_neumann_step (p0 : Processor) (mem : Memory) : Option (Processor × Memory) :=
  let s1 := readBitFromPc mem p0 0
  let s2 := readBitFromPc mem s1.1 s1.2
  let s3 := readBitFromPc mem s2.1 s2.2
  let s4 := readBitFromPc mem s3.1 s3.2
  let p := s4.1
  let opcode := s4.2
  if opcode = 0 then -- add2
    let t1 := readRegFromPc mem p
    let t2 := readRegFromPc mem t1.1
    let p2 := t2.1
    match p2.r.get? t1.2, p2.r.get? t2.2 with
    | some uop1, some uop2 =>
      let fullr := uop1 + uop2
      if uop1 + uop2 < 2 ^ 32 then
        let ur := uop1 + uop2
        some ({ p2 with
                  r := p2.r.set t1.2 ur
                  zflag := decide (ur = 0)
                  cflag := decide (fullr > 2 ^ 32)
                  nflag := decide (2 ^ 31 ≤ ur) }, mem)
      else none
    | _, _ => none
  else if opcode = 1 then -- add2i
    let t1 := readRegFromPc mem p
    let t2 := readConstFromPc mem t1.1
    let p2 := t2.1
    match p2.r.get? t1.2 with
    | some uop1 =>
      let uop2 := t2.2 % 2 ^ 32
      let fullr := uop1 + uop2
      if uop1 + uop2 < 2 ^ 32 then
        let ur := uop1 + uop2
        some ({ p2 with
                  r := p2.r.set t1.2 ur
                  zflag := decide (ur = 0)
                  cflag := decide (fullr > 2 ^ 32)
                  nflag := decide (2 ^ 31 ≤ ur) }, mem)
      else none
    | none => none
  else if opcode = 10 then -- jump
    match readAddrFromPc mem p with
    | some (p2, offset) =>
      if p2.pc + offset < 2 ^ 32 then
        some ({ p2 with pc := p2.pc + offset },
          { mem with counter := mem.counter.set 0 (p2.pc + offset) })
      else none
    | none => none
  else if opcode = 8 then -- shift
    let t1 := readBitFromPc mem p 0
    let t2 := readRegFromPc mem t1.1
    let t3 := readShiftvalFromPc mem t2.1
    let p3 := t3.1
    match p3.r.get? t2.2 with
    | some uop1 =>
      if t3.2 = 0 ∨ 32 ≤ t3.2 then none
      else if t1.2 = 1 then
        let ur := uop1 >>> t3.2
        some ({ p3 with
                  r := p3.r.set t2.2 ur
                  zflag := decide (ur = 0)
                  cflag := decide ((uop1 >>> (t3.2 - 1)) &&& 1 = 1) }, mem)
      else
        let ur := uop1 <<< t3.2 % 2 ^ 32
        some ({ p3 with
                  r := p3.r.set t2.2 ur
                  zflag := decide (ur = 0)
                  cflag := decide ((uop1 <<< (t3.2 - 1)) % 2 ^ 32 &&& 2 ^ 31 ≠ 0) }, mem)
    | none => none
  else if opcode = 12 ∨ opcode = 13 then
    let u1 := readBitFromPc mem p opcode
    let u2 := readBitFromPc mem u1.1 u1.2
    if u2.2 = 52 then -- 0b110100: write, whose handler only reads operands
      let w1 := readRegFromPc mem u2.1
      let w2 := readSizeFromPc mem w1.1
      some (w2.1, mem)
    else some (u2.1, mem)
  else if opcode = 14 ∨ opcode = 15 then
    let u1 := readBitFromPc mem p opcode
    let u2 := readBitFromPc mem u1.1 u1.2
    let u3 := readBitFromPc mem u2.1 u2.2
    some (u3.1, mem)
  else some (p, mem)

end Simu

/-- C1: round-trip failure, evaluated at `add2 r1 r2` with the default
opcode table.  The cleartext encoder renders the two registers on
`NB_BIT_REG = 8` bits each (20 bits in total), while the decoder reads
3-bit register fields — and its bit source `Memory::read_bit` is a stub
returning 0 — so executing the step on a memory loaded with the encoded
instruction performs `add2 r0 r0` (10 bits consumed, registers unchanged,
`Z` set) instead of the original `add2 r1 r2`, which would have set
`r1 = 5 + 3`. -/
theorem claimC1_roundtrip_bug :
    ∃ toks bs,
      BackEnd.handle_line DEFAULT_OPCODE ⟨"add2", [⟨VT.Register, 1⟩, ⟨VT.Register, 2⟩]⟩ =
        .ok toks ∧
      packetBits toks = some bs ∧
      bs.length = 20 ∧
      Simu.von_neumann_step ⟨0, 0, 0, 0, [0, 5, 3, 0, 0, 0, 0, 0], false, false, false⟩
          ⟨[bitsToNat bs], [0, 0, 0, 0]⟩ =
        some (⟨10, 0, 0, 0, [0, 5, 3, 0, 0, 0, 0, 0], true, false, false⟩,
          ⟨[bitsToNat bs], [0, 0, 0, 0]⟩) ∧
      ([0, 5, 3, 0, 0, 0, 0, 0] : List Nat) ≠
        [0, 5, 3, 0, 0, 0, 0, 0].set 1 ((5 + 3) % 2 ^ 32) := by
  refine ⟨[.bits [b0, b0, b0, b0], .bits [b0, b0, b0, b0, b0, b0, b0, b1],
    .bits [b0, b0, b0, b0, b0, b0, b1, b0]],
    [b0, b0, b0, b0, b0, b0, b0, b0, b0, b0, b0, b1, b0, b0, b0, b0, b0, b0, b1, b0],
    ?_, ?_, ?_, ?_, ?_⟩ <;> decide

/-! ## Label resolver (labels.rs) -/

/-- A `fullcode` entry payload: the Rust pushes either the accumulated
cleartext string or (for label-bearing lines) the `Line` itself into the
same vector, so the payload is a sum. -/
inductive Payload where
  | str (pkts : List (List PacketTok))
  | line (l : Line)
deriving DecidableEq, Repr

/-- `HashMap::get` on a numeric-keyed map. -/
def lookupNat (d : List (Nat × Nat)) (k : Nat) : Option Nat :=
  (d.find? (fun e => e.1 == k)).map (·.2)

/-- Two's-complement wrap into the `i64` range (what Rust `shl` does to the
value). -/
def wrap64 (x : Int) : Int := (x + 2 ^ 63) % 2 ^ 64 - 2 ^ 63

/-- `1i64 << sh`: the shift amount must stay below 64; the value wraps. -/
def shl1i64 (sh : Nat) : Except AsmErr Int :=
  if 64 ≤ sh then .error .overflow else .ok (wrap64 (2 ^ sh))

/-- Checked `i64` negation: `-(i64::MIN)` overflows. -/
def negI64 (x : Int) : Except AsmErr Int :=
  if x = i64Min then .error .overflow else .ok (-x)

namespace Labels

/-- The `bit_cost` map `{8 ↦ 9, 16 ↦ 18, 32 ↦ 35, 64 ↦ 67}`. -/
def bit_cost (w : Nat) : Option Nat :=
  if w = 8 then some 9 else if w = 16 then some 18
  else if w = 32 then some 35 else if w = 64 then some 67 else none

/-- The address-width marker bits `{8 ↦ 0, 16 ↦ 10, 32 ↦ 110, 64 ↦ 111}`
(the map the source calls `bit_prefix`). -/
def widthMark (w : Nat) : Option (List Bool) :=
  if w = 8 then some [b0] else if w = 16 then some [b1, b0]
  else if w = 32 then some [b1, b1, b0] else if w = 64 then some [b1, b1, b1] else none

/-- Body of the two summation loops of `count_bytes`: for each index `k`,
the entry's bit count plus, when `k` carries an address slot, the
`bit_cost` of its current width (`unwrap` on an unknown width panics). -/
def countRange (fc : List (Nat × Payload)) (addr : List (Option (Nat × Int))) :
    List Nat → Except AsmErr Int
  | [] => .ok 0
  | k :: rest => do
    let e ← match fc.get? k with
      | some e => pure e
      | none => throw AsmErr.notFound
    let extra : Int ← match addr.getD k none with
      | some (nb, _) =>
        match bit_cost nb with
        | some c => pure (c : Int)
        | none => throw AsmErr.notFound
      | none => pure 0
    let s ← countRange fc addr rest
    pure ((e.1 : Int) + extra + s)

/-- `LabelsClearTextBackEnd::count_bytes`: forward distances sum the
entries strictly between `j` and `i`; backward (and self) distances sum
the entries from `i` through `j` inclusive, negated. -/
def count_bytes (fc : List (Nat × Payload)) (addr : List (Option (Nat × Int)))
    (i j : Nat) : Except AsmErr Int :=
  if j < i then countRange fc addr (List.range' (j + 1) (i - (j + 1)))
  else (countRange fc addr (List.range' i (j + 1 - i))).map (fun s => -s)

/-- The out-of-range test `s < -(1 << (nb_bit-1)) || s >= (1 << (nb_bit-1))`
with `i64` semantics: at `nb = 64` the wrapped bound is `i64::MIN` and its
negation overflows. -/
def rangeCheck (nb : Nat) (s : Int) : Except AsmErr Bool :=
  match shl1i64 (nb - 1) with
  | .error e => .error e
  | .ok b =>
    match negI64 b with
    | .error e => .error e
    | .ok lo => .ok (decide (s < lo) || decide (b ≤ s))

/-- The initial slot table: `(8, 0)` at every index whose source line is a
label-bearing jump or call (the source keys `addr_values` by `fullcode`
index but tests `line_gene` at the same index, which this reproduces). -/
def initAddr (fc : List (Nat × Payload)) (lines : List Line) :
    List (Option (Nat × Int)) :=
  (List.range fc.length).map (fun j =>
    match lines.get? j with
    | some line =>
      if line.funcname = "jumpl" ∨ line.funcname = "jumpifl" ∨ line.funcname = "calll"
      then some (8, 0) else none
    | none => none)

/-- Outcome of examining one address slot: the pass either widened it (and
stops, reporting a change) or updated its offset in place (and goes on). -/
inductive SlotOut where
  | widened (a : List (Option (Nat × Int)))
  | updated (a : List (Option (Nat × Int)))
deriving DecidableEq, Repr

/-- Examination of the slot at index `j`: fetch the label operand
(`argIdx`), resolve it (`panic!("Undefined label")` otherwise), recompute
the offset with `count_bytes` (against `cbj`, which is `j` for jumps and
`0` for `calll`), and apply the out-of-range test at the slot's current
width. -/
def slotStep (fc : List (Nat × Payload)) (ldict : List (Nat × Nat))
    (addr : List (Option (Nat × Int))) (line : Line) (argIdx cbj j : Nat) :
    Except AsmErr SlotOut :=
  match line.typed_args.get? argIdx with
  | none => .error .notFound
  | some v =>
    match lookupNat ldict v.raw_value with
    | none => .error .undefinedLabel
    | some i =>
      match addr.getD j none with
      | none => .error .notFound
      | some e =>
        match count_bytes fc addr i cbj with
        | .error er => .error er
        | .ok s =>
          match rangeCheck e.1 s with
          | .error er => .error er
          | .ok true =>
            if e.1 = 64 then .error .jumpTooFar
            else .ok (.widened (addr.set j (some (e.1 * 2, s))))
          | .ok false => .ok (.updated (addr.set j (some (e.1, s))))

/-- One pass of the widening loop over the indices `js` (stream order):
recompute each slot's offset; the first out-of-range slot is widened
(`nb * 2`) and the pass stops reporting a change; `nb = 64` fails.  A slot
whose offset fits is updated in place and the pass continues. -/
def scanGo (fc : List (Nat × Payload)) (lines : List Line) (ldict : List (Nat × Nat)) :
    List Nat → List (Option (Nat × Int)) →
    Except AsmErr (Bool × List (Option (Nat × Int)))
  | [], addr => .ok (false, addr)
  | j :: rest, addr =>
    match lines.get? j with
    | some line =>
      if line.funcname = "jumpl" ∨ line.funcname = "jumpifl" then
        match slotStep fc ldict addr line (if line.funcname = "jumpl" then 0 else 1) j j with
        | .error e => .error e
        | .ok (.widened a') => .ok (true, a')
        | .ok (.updated a') => scanGo fc lines ldict rest a'
      else if line.funcname = "calll" then
        match slotStep fc ldict addr line 0 0 j with
        | .error e => .error e
        | .ok (.widened a') => .ok (true, a')
        | .ok (.updated a') => scanGo fc lines ldict rest a'
      else scanGo fc lines ldict rest addr
    | none => scanGo fc lines ldict rest addr

/-- One pass over the whole stream. -/
def scanPass (fc : List (Nat × Payload)) (lines : List Line) (ldict : List (Nat × Nat))
    (addr : List (Option (Nat × Int))) :
    Except AsmErr (Bool × List (Option (Nat × Int))) :=
  scanGo fc lines ldict (List.range fc.length) addr

/-- The `loop { ...; if !change { break } }` fixpoint, with explicit fuel;
`none` means the fuel ran out before the loop settled. -/
def widenLoop (fc : List (Nat × Payload)) (lines : List Line) (ldict : List (Nat × Nat)) :
    Nat → List (Option (Nat × Int)) →
    Option (Except AsmErr (List (Option (Nat × Int))))
  | 0, _ => none
  | fuel + 1, addr =>
    match scanPass fc lines ldict addr with
    | .error e => some (.error e)
    | .ok (true, a') => widenLoop fc lines ldict fuel a'
    | .ok (false, a') => some (.ok a')

end Labels

namespace Labels

/-- Widenings left before a slot reaches 64 bits. -/
def stepsLeft (w : Nat) : Nat :=
  if w = 8 then 3 else if w = 16 then 2 else if w = 32 then 1 else 0

/-- Contribution of one slot to the termination measure. -/
def entryM : Option (Nat × Int) → Nat
  | some e => stepsLeft e.1
  | none => 0

/-- Termination measure: total widenings left in the slot table. -/
def measureA (addr : List (Option (Nat × Int))) : Nat := (addr.map entryM).sum

/-- Every slot width is one of the four supported widths. -/
def widthsOK (addr : List (Option (Nat × Int))) : Prop :=
  ∀ j w s, addr.getD j none = some (w, s) → w = 8 ∨ w = 16 ∨ w = 32 ∨ w = 64

/-- Every slot sits at an index whose source line is label-bearing (true of
the initial table and preserved by the scan). -/
def align (lines : List Line) (addr : List (Option (Nat × Int))) : Prop :=
  ∀ j w s, addr.getD j none = some (w, s) →
    ∃ line, lines.get? j = some line ∧
      (line.funcname = "jumpl" ∨ line.funcname = "jumpifl" ∨ line.funcname = "calll")

theorem getD_eq_get? {α : Type} (l : List (Option α)) (n : Nat) :
    l.getD n none = (l.get? n).getD none := by
  simp [List.getD_eq_getElem?_getD, List.get?_eq_getElem?]

theorem getD_some_lt {α : Type} (l : List (Option α)) (j : Nat) (e : α)
    (h : l.getD j none = some e) : j < l.length := by
  by_contra hc
  rw [getD_eq_get?, List.get?_eq_none.mpr (by omega)] at h
  simp at h

theorem getD_set {α : Type} (l : List (Option α)) (j k : Nat) (v : Option α) :
    (l.set j v).getD k none =
      if j = k then (if k < l.length then v else none) else l.getD k none := by
  rw [getD_eq_get?, getD_eq_get?]
  by_cases hjk : j = k
  · subst hjk
    by_cases hl : j < l.length
    · rw [List.get?_set_eq_of_lt v hl]
      simp [hl]
    · rw [List.get?_eq_none.mpr (by simpa using hl)]
      simp [hl]
  · rw [List.get?_set_ne v l hjk]
    simp [hjk]

theorem measureA_set (addr : List (Option (Nat × Int))) (j : Nat) (v : Option (Nat × Int))
    (h : j < addr.length) :
    measureA (addr.set j v) + entryM (addr.getD j none) = measureA addr + entryM v := by
  induction addr generalizing j with
  | nil => simp at h
  | cons a t ih =>
    cases j with
    | zero => simp [measureA, List.getD]; omega
    | succ j =>
      have hj : j < t.length := by simpa using h
      have := ih j hj
      simp only [List.set, measureA, List.map, List.sum_cons] at this ⊢
      have hgd : (a :: t).getD (j + 1) none = t.getD j none := by
        rw [getD_eq_get?, getD_eq_get?]
        rfl
      rw [hgd]
      omega

theorem stepsLeft_le (w : Nat) : stepsLeft w ≤ 3 := by
  unfold stepsLeft
  split <;> try omega
  split <;> try omega
  split <;> omega

theorem rangeCheck_64 (s : Int) : rangeCheck 64 s = .error AsmErr.overflow := by
  have h1 : wrap64 9223372036854775808 = i64Min := by decide
  simp [rangeCheck, shl1i64, negI64, h1]

theorem rangeCheck_ok_ne64 (nb : Nat) (s : Int) (out : Bool)
    (h : rangeCheck nb s = .ok out) : nb ≠ 64 := by
  rintro rfl
  rw [rangeCheck_64] at h
  cases h

theorem slotStep_widened (fc : List (Nat × Payload)) (ldict : List (Nat × Nat))
    (addr : List (Option (Nat × Int))) (line : Line) (argIdx cbj j : Nat)
    (a' : List (Option (Nat × Int)))
    (h : slotStep fc ldict addr line argIdx cbj j = .ok (.widened a')) :
    ∃ nb s0 s, addr.getD j none = some (nb, s0) ∧ nb ≠ 64 ∧
      a' = addr.set j (some (nb * 2, s)) := by
  unfold slotStep at h
  split at h
  · simp at h
  split at h
  · simp at h
  split at h
  · simp at h
  rename_i v _ i _ e he
  split at h
  · simp at h
  rename_i s _
  split at h
  · simp at h
  · split at h
    · simp at h
    rename_i h64
    simp only [Except.ok.injEq, SlotOut.widened.injEq] at h
    exact ⟨e.1, e.2, s, by rw [← he], h64, h.symm⟩
  · simp at h

theorem slotStep_updated (fc : List (Nat × Payload)) (ldict : List (Nat × Nat))
    (addr : List (Option (Nat × Int))) (line : Line) (argIdx cbj j : Nat)
    (a' : List (Option (Nat × Int)))
    (h : slotStep fc ldict addr line argIdx cbj j = .ok (.updated a')) :
    ∃ nb s0 s, addr.getD j none = some (nb, s0) ∧ nb ≠ 64 ∧
      a' = addr.set j (some (nb, s)) := by
  unfold slotStep at h
  split at h
  · simp at h
  split at h
  · simp at h
  split at h
  · simp at h
  rename_i v _ i _ e he
  split at h
  · simp at h
  rename_i s _
  split at h
  · simp at h
  · split at h
    · simp at h
    · simp at h
  · rename_i hout
    simp only [Except.ok.injEq, SlotOut.updated.injEq] at h
    exact ⟨e.1, e.2, s, by rw [← he], rangeCheck_ok_ne64 e.1 s false hout, h.symm⟩

theorem widthsOK_set (addr : List (Option (Nat × Int))) (j nb : Nat) (s0 s : Int) (w' : Nat)
    (h : widthsOK addr) (hj : addr.getD j none = some (nb, s0))
    (hw : w' = nb ∨ w' = nb * 2) (h64 : nb ≠ 64) :
    widthsOK (addr.set j (some (w', s))) := by
  intro k w sg hk
  rw [getD_set] at hk
  split at hk
  · split at hk
    · rw [Option.some.injEq, Prod.mk.injEq] at hk
      obtain ⟨rfl, rfl⟩ := hk
      have := h j nb s0 hj
      rcases hw with rfl | rfl <;> omega
    · cases hk
  · exact h k w sg hk

theorem align_set (lines : List Line) (addr : List (Option (Nat × Int))) (j : Nat)
    (v : Option (Nat × Int)) (h : align lines addr)
    (hline : ∃ line, lines.get? j = some line ∧
      (line.funcname = "jumpl" ∨ line.funcname = "jumpifl" ∨ line.funcname = "calll")) :
    align lines (addr.set j v) := by
  intro k w sg hk
  rw [getD_set] at hk
  split at hk
  · rename_i hjk
    exact hjk ▸ hline
  · exact h k w sg hk

theorem scanGo_inv (fc : List (Nat × Payload)) (lines : List Line) (ldict : List (Nat × Nat)) :
    ∀ js addr b a', scanGo fc lines ldict js addr = .ok (b, a') →
    a'.length = addr.length ∧ (widthsOK addr → widthsOK a') ∧
    (align lines addr → align lines a') := by
  intro js
  induction js with
  | nil =>
    intro addr b a' h
    simp only [scanGo, Except.ok.injEq, Prod.mk.injEq] at h
    obtain ⟨-, rfl⟩ := h
    exact ⟨rfl, id, id⟩
  | cons j rest ih =>
    intro addr b a' h
    unfold scanGo at h
    split at h
    · rename_i line hline
      split at h
      · rename_i hjump
        split at h
        · simp at h
        · rename_i a1 hstep
          simp only [Except.ok.injEq, Prod.mk.injEq] at h
          obtain ⟨-, rfl⟩ := h
          obtain ⟨nb, s0, sv, hj, h64, rfl⟩ := slotStep_widened fc ldict addr line _ j j a1 hstep
          refine ⟨by simp, ?_, ?_⟩
          · intro hw
            exact widthsOK_set addr j nb s0 sv (nb * 2) hw hj (Or.inr rfl) h64
          · intro ha
            exact align_set lines addr j _ ha ⟨line, hline, by tauto⟩
        · rename_i a1 hstep
          obtain ⟨nb, s0, sv, hj, h64, rfl⟩ := slotStep_updated fc ldict addr line _ j j a1 hstep
          obtain ⟨hl, hwp, hap⟩ := ih _ b a' h
          refine ⟨by simpa using hl, ?_, ?_⟩
          · intro hw
            exact hwp (widthsOK_set addr j nb s0 sv nb hw hj (Or.inl rfl) h64)
          · intro ha
            exact hap (align_set lines addr j _ ha ⟨line, hline, by tauto⟩)
      · split at h
        · rename_i hcall
          split at h
          · simp at h
          · rename_i a1 hstep
            simp only [Except.ok.injEq, Prod.mk.injEq] at h
            obtain ⟨-, rfl⟩ := h
            obtain ⟨nb, s0, sv, hj, h64, rfl⟩ := slotStep_widened fc ldict addr line 0 0 j a1 hstep
            refine ⟨by simp, ?_, ?_⟩
            · intro hw
              exact widthsOK_set addr j nb s0 sv (nb * 2) hw hj (Or.inr rfl) h64
            · intro ha
              exact align_set lines addr j _ ha ⟨line, hline, by tauto⟩
          · rename_i a1 hstep
            obtain ⟨nb, s0, sv, hj, h64, rfl⟩ := slotStep_updated fc ldict addr line 0 0 j a1 hstep
            obtain ⟨hl, hwp, hap⟩ := ih _ b a' h
            refine ⟨by simpa using hl, ?_, ?_⟩
            · intro hw
              exact hwp (widthsOK_set addr j nb s0 sv nb hw hj (Or.inl rfl) h64)
            · intro ha
              exact hap (align_set lines addr j _ ha ⟨line, hline, by tauto⟩)
        · exact ih addr b a' h
    · exact ih addr b a' h

theorem stepsLeft_double (nb : Nat) (h : nb = 8 ∨ nb = 16 ∨ nb = 32) :
    stepsLeft (nb * 2) < stepsLeft nb := by
  rcases h with rfl | rfl | rfl <;> decide

theorem scanGo_measure (fc : List (Nat × Payload)) (lines : List Line)
    (ldict : List (Nat × Nat)) :
    ∀ js addr a', scanGo fc lines ldict js addr = .ok (true, a') → widthsOK addr →
    measureA a' < measureA addr := by
  intro js
  induction js with
  | nil =>
    intro addr a' h _
    simp [scanGo] at h
  | cons j rest ih =>
    intro addr a' h hw
    unfold scanGo at h
    split at h
    · rename_i line hline
      split at h
      · rename_i hjump
        split at h
        · simp at h
        · rename_i a1 hstep
          simp only [Except.ok.injEq, Prod.mk.injEq] at h
          obtain ⟨-, rfl⟩ := h
          obtain ⟨nb, s0, sv, hj, h64, rfl⟩ := slotStep_widened fc ldict addr line _ j j a1 hstep
          have hjl := getD_some_lt addr j _ hj
          have hms := measureA_set addr j (some (nb * 2, sv)) hjl
          rw [hj] at hms
          have hnb : nb = 8 ∨ nb = 16 ∨ nb = 32 := by
            have := hw j nb s0 hj
            omega
          have := stepsLeft_double nb hnb
          simp only [entryM] at hms
          omega
        · rename_i a1 hstep
          obtain ⟨nb, s0, sv, hj, h64, rfl⟩ := slotStep_updated fc ldict addr line _ j j a1 hstep
          have hjl := getD_some_lt addr j _ hj
          have hms := measureA_set addr j (some (nb, sv)) hjl
          rw [hj] at hms
          simp only [entryM] at hms
          have hrec := ih _ a' h (widthsOK_set addr j nb s0 sv nb hw hj (Or.inl rfl) h64)
          omega
      · split at h
        · rename_i hcall
          split at h
          · simp at h
          · rename_i a1 hstep
            simp only [Except.ok.injEq, Prod.mk.injEq] at h
            obtain ⟨-, rfl⟩ := h
            obtain ⟨nb, s0, sv, hj, h64, rfl⟩ :=
              slotStep_widened fc ldict addr line 0 0 j a1 hstep
            have hjl := getD_some_lt addr j _ hj
            have hms := measureA_set addr j (some (nb * 2, sv)) hjl
            rw [hj] at hms
            have hnb : nb = 8 ∨ nb = 16 ∨ nb = 32 := by
              have := hw j nb s0 hj
              omega
            have := stepsLeft_double nb hnb
            simp only [entryM] at hms
            omega
          · rename_i a1 hstep
            obtain ⟨nb, s0, sv, hj, h64, rfl⟩ :=
              slotStep_updated fc ldict addr line 0 0 j a1 hstep
            have hjl := getD_some_lt addr j _ hj
            have hms := measureA_set addr j (some (nb, sv)) hjl
            rw [hj] at hms
            simp only [entryM] at hms
            have hrec := ih _ a' h (widthsOK_set addr j nb s0 sv nb hw hj (Or.inl rfl) h64)
            omega
        · exact ih addr a' h hw
    · exact ih addr a' h hw

theorem scanGo_clean (fc : List (Nat × Payload)) (lines : List Line)
    (ldict : List (Nat × Nat)) :
    ∀ js addr a', scanGo fc lines ldict js addr = .ok (false, a') →
    align lines addr →
    (∀ k w s, addr.getD k none = some (w, s) → k ∈ js ∨ w ≠ 64) →
    ∀ k w s, a'.getD k none = some (w, s) → w ≠ 64 := by
  intro js
  induction js with
  | nil =>
    intro addr a' h _ hpre k w s hk
    simp only [scanGo, Except.ok.injEq, Prod.mk.injEq] at h
    obtain ⟨-, rfl⟩ := h
    rcases hpre k w s hk with hmem | hne
    · cases hmem
    · exact hne
  | cons j rest ih =>
    intro addr a' h ha hpre
    unfold scanGo at h
    split at h
    · rename_i line hline
      split at h
      · rename_i hjump
        split at h
        · simp at h
        · simp at h
        · rename_i a1 hstep
          obtain ⟨nb, s0, sv, hj, h64, rfl⟩ := slotStep_updated fc ldict addr line _ j j a1 hstep
          have hjl := getD_some_lt addr j _ hj
          refine ih _ a' h (align_set lines addr j _ ha ⟨line, hline, by tauto⟩) ?_
          intro k w s hk
          rw [getD_set] at hk
          split at hk
          · rename_i hjk
            split at hk
            · rw [Option.some.injEq, Prod.mk.injEq] at hk
              exact Or.inr (hk.1 ▸ h64)
            · cases hk
          · rename_i hjk
            rcases hpre k w s hk with hmem | hne
            · rcases List.mem_cons.mp hmem with rfl | hr
              · exact absurd rfl hjk
              · exact Or.inl hr
            · exact Or.inr hne
      · split at h
        · rename_i hcall
          split at h
          · simp at h
          · simp at h
          · rename_i a1 hstep
            obtain ⟨nb, s0, sv, hj, h64, rfl⟩ :=
              slotStep_updated fc ldict addr line 0 0 j a1 hstep
            refine ih _ a' h (align_set lines addr j _ ha ⟨line, hline, by tauto⟩) ?_
            intro k w s hk
            rw [getD_set] at hk
            split at hk
            · rename_i hjk
              split at hk
              · rw [Option.some.injEq, Prod.mk.injEq] at hk
                exact Or.inr (hk.1 ▸ h64)
              · cases hk
            · rename_i hjk
              rcases hpre k w s hk with hmem | hne
              · rcases List.mem_cons.mp hmem with rfl | hr
                · exact absurd rfl hjk
                · exact Or.inl hr
              · exact Or.inr hne
        · rename_i hjump hcall
          refine ih addr a' h ha ?_
          intro k w s hk
          rcases hpre k w s hk with hmem | hne
          · rcases List.mem_cons.mp hmem with rfl | hr
            · obtain ⟨l2, hl2, hfn⟩ := ha k w s hk
              rw [hline] at hl2
              rw [Option.some.injEq] at hl2
              subst hl2
              rcases hfn with hf | hf | hf
              · exact absurd (Or.inl hf) hjump
              · exact absurd (Or.inr hf) hjump
              · exact absurd hf hcall
            · exact Or.inl hr
          · exact Or.inr hne
    · rename_i hline
      refine ih addr a' h ha ?_
      intro k w s hk
      rcases hpre k w s hk with hmem | hne
      · rcases List.mem_cons.mp hmem with rfl | hr
        · obtain ⟨l2, hl2, -⟩ := ha k w s hk
          rw [hline] at hl2
          cases hl2
        · exact Or.inl hr
      · exact Or.inr hne

theorem widenLoop_term (fc : List (Nat × Payload)) (lines : List Line)
    (ldict : List (Nat × Nat)) :
    ∀ fuel addr, widthsOK addr → measureA addr < fuel →
    widenLoop fc lines ldict fuel addr ≠ none := by
  intro fuel
  induction fuel with
  | zero =>
    intro addr _ hm
    omega
  | succ f ih =>
    intro addr hw hm
    unfold widenLoop
    cases h : scanPass fc lines ldict addr with
    | error e => simp
    | ok r =>
      obtain ⟨b, a1⟩ := r
      cases b
      · simp
      · simp only
        unfold scanPass at h
        have hm1 := scanGo_measure fc lines ldict _ addr a1 h hw
        have hw1 := (scanGo_inv fc lines ldict _ addr true a1 h).2.1 hw
        exact ih a1 hw1 (by omega)

theorem widenLoop_ok_widths (fc : List (Nat × Payload)) (lines : List Line)
    (ldict : List (Nat × Nat)) :
    ∀ fuel addr a', widenLoop fc lines ldict fuel addr = some (.ok a') →
    align lines addr → addr.length = fc.length → widthsOK addr →
    ∀ j w s, a'.getD j none = some (w, s) → w = 8 ∨ w = 16 ∨ w = 32 := by
  intro fuel
  induction fuel with
  | zero =>
    intro addr a' h
    cases h
  | succ f ih =>
    intro addr a' h ha hl hw
    unfold widenLoop at h
    split at h
    · cases h
    · rename_i a1 hscan
      unfold scanPass at hscan
      exact ih a1 a' h ((scanGo_inv fc lines ldict _ addr true a1 hscan).2.2 ha)
        (by rw [(scanGo_inv fc lines ldict _ addr true a1 hscan).1, hl])
        ((scanGo_inv fc lines ldict _ addr true a1 hscan).2.1 hw)
    · rename_i a1 hscan
      rw [Option.some.injEq, Except.ok.injEq] at h
      unfold scanPass at hscan
      intro j w s hj
      rw [← h] at hj
      have hne := scanGo_clean fc lines ldict _ addr a1 hscan ha ?_ j w s hj
      · have hwo := (scanGo_inv fc lines ldict _ addr false a1 hscan).2.1 hw
        have := hwo j w s hj
        omega
      · intro k w' s' hk
        have := getD_some_lt addr k _ hk
        exact Or.inl (List.mem_range.mpr (by omega))

theorem initAddr_getD (fc : List (Nat × Payload)) (lines : List Line) (j : Nat) :
    (initAddr fc lines).getD j none =
      if j < fc.length then
        (match lines.get? j with
         | some line =>
           if line.funcname = "jumpl" ∨ line.funcname = "jumpifl" ∨ line.funcname = "calll"
           then some ((8 : Nat), (0 : Int)) else none
         | none => none)
      else none := by
  rw [getD_eq_get?]
  unfold initAddr
  by_cases hj : j < fc.length
  · rw [List.get?_eq_getElem?, List.getElem?_map, List.getElem?_range hj]
    simp [hj]
  · rw [List.get?_eq_none.mpr (by simp; omega)]
    simp [hj]

theorem initAddr_length (fc : List (Nat × Payload)) (lines : List Line) :
    (initAddr fc lines).length = fc.length := by
  simp [initAddr]

theorem initAddr_widthsOK (fc : List (Nat × Payload)) (lines : List Line) :
    widthsOK (initAddr fc lines) := by
  intro j w s hj
  rw [initAddr_getD] at hj
  split at hj
  · split at hj
    · split at hj
      · rw [Option.some.injEq, Prod.mk.injEq] at hj
        omega
      · cases hj
    · cases hj
  · cases hj

theorem initAddr_align (fc : List (Nat × Payload)) (lines : List Line) :
    align lines (initAddr fc lines) := by
  intro j w s hj
  rw [initAddr_getD] at hj
  split at hj
  · split at hj
    · rename_i line hline
      split at hj
      · exact ⟨line, hline, by assumption⟩
      · cases hj
    · cases hj
  · cases hj

theorem measureA_le_three (addr : List (Option (Nat × Int))) :
    measureA addr ≤ 3 * addr.length := by
  induction addr with
  | nil => simp [measureA]
  | cons a t ih =>
    have : entryM a ≤ 3 := by
      cases a with
      | none => simp [entryM]
      | some e => simpa [entryM] using stepsLeft_le e.1
    simp only [measureA, List.map, List.sum_cons, List.length_cons] at ih ⊢
    omega

/-- C5 (amended): the widening loop, started from the initial all-8-bit
slot table, terminates within `3 · |fullcode| + 1` passes (each pass either
settles or doubles one slot's width along `8 → 16 → 32 → 64`, so a slot is
widened at most 3 times); but on every successful resolution each slot's
final width is 8, 16 or 32 — once a slot reaches width 64 the range test
`s < -(1i64 << 63)` overflows (`panic` in checked builds, an always-failing
comparison under the release wrap), so resolution fails no matter the
offset and the 64-bit width is never usable, contrary to the claim's
"fails exactly when the offset exceeds the signed 64-bit range". -/
theorem claimC5_widening (fc : List (Nat × Payload)) (lines : List Line)
    (ldict : List (Nat × Nat)) :
    Labels.widenLoop fc lines ldict (3 * fc.length + 1) (Labels.initAddr fc lines) ≠ none ∧
    (∀ fuel a', Labels.widenLoop fc lines ldict fuel (Labels.initAddr fc lines) =
        some (.ok a') →
      ∀ j w s, a'.getD j none = some (w, s) → w = 8 ∨ w = 16 ∨ w = 32) := by
  constructor
  · apply widenLoop_term fc lines ldict _ _ (initAddr_widthsOK fc lines)
    have h1 := measureA_le_three (initAddr fc lines)
    rw [initAddr_length] at h1
    omega
  · intro fuel a' h
    exact widenLoop_ok_widths fc lines ldict fuel _ a' h (initAddr_align fc lines)
      (initAddr_length fc lines) (initAddr_widthsOK fc lines)

end Labels

/-- C5 counterexample: a layout whose backward jump offset is
`-(2^31 + 13)` — comfortably inside the signed 64-bit range, where the
claim says resolution succeeds at width 64 — yet the widening loop widens
`8 → 16 → 32 → 64` and then fails (the width-64 bound computation
overflows) instead of accepting the offset. -/
theorem claimC5_cex :
    Labels.widenLoop [(2 ^ 31, .str []), (4, .line ⟨"jumpl", [⟨VT.Other, 0⟩]⟩)]
      [⟨"add2", []⟩, ⟨"jumpl", [⟨VT.Other, 0⟩]⟩] [(0, 0)] 10
      (Labels.initAddr [(2 ^ 31, .str []), (4, .line ⟨"jumpl", [⟨VT.Other, 0⟩]⟩)]
        [⟨"add2", []⟩, ⟨"jumpl", [⟨VT.Other, 0⟩]⟩]) =
    some (.error AsmErr.overflow) ∧
    i64Min ≤ -(2 ^ 31 + 13 : Int) ∧ -(2 ^ 31 + 13 : Int) < 2 ^ 63 := by
  refine ⟨by decide, by decide, by decide⟩

/-- C5 witness: the amended statement applied to a one-jump layout whose
offset `-13` fits at width 8: the loop terminates in the fuel bound and the
resolved slot's width is 8. -/
theorem claimC5_witness :
    Labels.widenLoop [(4, .line ⟨"jumpl", [⟨VT.Other, 0⟩]⟩)]
      [⟨"jumpl", [⟨VT.Other, 0⟩]⟩] [(0, 0)]
      (3 * ([(4, Payload.line ⟨"jumpl", [⟨VT.Other, 0⟩]⟩)] : List (Nat × Payload)).length + 1)
      (Labels.initAddr [(4, .line ⟨"jumpl", [⟨VT.Other, 0⟩]⟩)] [⟨"jumpl", [⟨VT.Other, 0⟩]⟩]) ≠
      none ∧
    ((8 : Nat) = 8 ∨ (8 : Nat) = 16 ∨ (8 : Nat) = 32) :=
  ⟨(Labels.claimC5_widening [(4, .line ⟨"jumpl", [⟨VT.Other, 0⟩]⟩)]
      [⟨"jumpl", [⟨VT.Other, 0⟩]⟩] [(0, 0)]).1,
    (Labels.claimC5_widening [(4, .line ⟨"jumpl", [⟨VT.Other, 0⟩]⟩)]
      [⟨"jumpl", [⟨VT.Other, 0⟩]⟩] [(0, 0)]).2 4 [some (8, -13)] (by decide) 0 8 (-13)
      (by decide)⟩

namespace Labels

/-- Whitespace-stripped character count of the accumulated packets
(`acc.split_whitespace().collect::<String>().len()`). -/
def strippedLen (pkts : List (List PacketTok)) : Nat :=
  (pkts.map (fun toks => (toks.map tokLen).sum)).sum

/-- Raw character count of one packet as appended to `acc`: tokens joined
by single spaces plus the trailing newline. -/
def rawPacketLen (toks : List PacketTok) : Nat :=
  (toks.map tokLen).sum + (toks.length - 1) + 1

/-- Raw character count of `acc` (`acc.len()`, whitespace included) — the
length used for the final `fullcode` entry, unlike the stripped length
used for the intermediate ones. -/
def rawLen (pkts : List (List PacketTok)) : Nat := (pkts.map rawPacketLen).sum

/-- `HashMap::insert` on the label table. -/
def upsert (d : List (Nat × Nat)) (k v : Nat) : List (Nat × Nat) :=
  if d.any (fun e => e.1 == k) then d.map (fun e => if e.1 == k then (k, v) else e)
  else d ++ [(k, v)]

/-- Loop body of `LabelsClearTextBackEnd::get_fullcode`: ordinary lines are
encoded and accumulated; a label-bearing or label line flushes the
accumulator (stripped length) and, for jumps/calls, appends a placeholder
entry holding the `Line` itself, whose count is the non-`l` opcode length
(plus 3 condition bits for `jumpifl`). -/
def get_fullcode_go (tree : List (String × List Bool)) :
    List Line → List (List PacketTok) → List (Nat × Payload) →
    Except AsmErr (List (Nat × Payload))
  | [], acc, fullcode => .ok (fullcode ++ [(rawLen acc, .str acc)])
  | line :: rest, acc, fullcode =>
    if line.funcname = "jumpl" ∨ line.funcname = "jumpifl" ∨
        line.funcname = "calll" ∨ line.funcname = "label" then
      match (if line.funcname = "label" then Except.ok ([] : List Bool) else
        match lookupTree tree (line.funcname.dropRight 1) with
        | some bs => Except.ok bs
        | none => Except.error AsmErr.notFound) with
      | .error e => .error e
      | .ok bitcode =>
        get_fullcode_go tree rest []
          (fullcode ++ [(strippedLen acc, Payload.str acc)] ++
            (if line.funcname = "jumpl" ∨ line.funcname = "calll" then
              [(bitcode.length, Payload.line line)]
             else if line.funcname = "jumpifl" then
              [(bitcode.length + 3, Payload.line line)]
             else []))
    else
      match BackEnd.handle_line tree line with
      | .error e => .error e
      | .ok pkt => get_fullcode_go tree rest (acc ++ [pkt]) fullcode

/-- `get_fullcode`, starting from the sentinel `(0, "")` entry. -/
def get_fullcode (tree : List (String × List Bool)) (line_gene : List Line) :
    Except AsmErr (List (Nat × Payload)) :=
  get_fullcode_go tree line_gene [] [(0, .str [])]

/-- `get_label_pos`: for every index `i` of `fullcode` the source looks up
the *first* `label` line of the whole stream (the loop index is unused in
the `find`) and re-inserts its label at `i` — so every label ends up
mapped to the final `fullcode` index. -/
def get_label_pos (line_gene : List Line) (fullcode : List (Nat × Payload)) :
    Except AsmErr (List (Nat × Nat)) :=
  match line_gene.find? (fun l => l.funcname == "label") with
  | none => .ok []
  | some l =>
    match l.typed_args.get? 0 with
    | none => .error AsmErr.notFound
    | some v =>
      .ok ((List.range fullcode.length).foldl (fun d i => upsert d v.raw_value i) [])

/-- `x.is_empty()` on a `fullcode` payload: the accumulated string is empty
exactly when no packet was accumulated; a `Line` payload compares unequal
to the empty string. -/
def payloadEmpty : Payload → Bool
  | .str pkts => pkts.isEmpty
  | .line _ => false

/-- `bin_condition` as called by the emitter: labels.rs indexes the
string-keyed condition table with the numeric `raw_value` (and back_end.rs
does not even define the method) — a type confusion, modelled as failure. -/
def bin_condition (_cond : Nat) : Except AsmErr (List Bool) := .error AsmErr.typeConfusion

/-- One emitted element: either a flushed accumulator block or a rebuilt
jump/call with its resolved address field. -/
inductive EmitChunk where
  | acc (pkts : List (List PacketTok))
  | slot (toks : List PacketTok)
deriving DecidableEq, Repr

/-- The emission pass of `packets`: skip empty entries, look up the source
line *by `fullcode` index* (an `unwrap`, which panics when the index runs
past the line stream), and rebuild label-bearing lines from the resolved
slot (width marker plus `binary_repr(n, k, signed=true)`). -/
def emit_go (tree : List (String × List Bool)) (line_gene : List Line)
    (addr : List (Option (Nat × Int))) :
    List (Nat × Payload) → Nat → Except AsmErr (List EmitChunk)
  | [], _ => .ok []
  | (_, x) :: rest, i =>
    if payloadEmpty x then emit_go tree line_gene addr rest (i + 1)
    else
      match line_gene.get? i with
      | none => .error AsmErr.notFound
      | some line =>
        if line.funcname = "jumpl" ∨ line.funcname = "jumpifl" ∨
            line.funcname = "calll" then
          match lookupTree tree (line.funcname.dropRight 1) with
          | none => .error AsmErr.notFound
          | some opbits =>
            match (if line.funcname = "jumpifl" then
                match line.typed_args.get? 0 with
                | none => Except.error AsmErr.notFound
                | some v => (bin_condition v.raw_value).map (fun bs => [PacketTok.bits bs])
              else Except.ok ([] : List PacketTok)) with
            | .error e => .error e
            | .ok condToks =>
              match addr.getD i none with
              | none => .error AsmErr.notFound
              | some kn =>
                match widthMark kn.1 with
                | none => .error AsmErr.notFound
                | some pfx =>
                  match BackEnd.binary_repr kn.2 kn.1 true with
                  | .error e => .error (AsmErr.repr e)
                  | .ok rep =>
                    match emit_go tree line_gene addr rest (i + 1) with
                    | .error e => .error e
                    | .ok out =>
                      .ok (.slot ([PacketTok.bits opbits] ++ condToks ++
                        [PacketTok.bits (pfx ++ rep)]) :: out)
        else
          match x with
          | .str pkts =>
            match emit_go tree line_gene addr rest (i + 1) with
            | .error e => .error e
            | .ok out => .ok (.acc pkts :: out)
          | .line _ => .error AsmErr.typeConfusion

/-- `LabelsClearTextBackEnd::packets`: segmentation, label table, widening
fixpoint (fuel covers the termination bound), then emission. -/
def packets (tree : List (String × List Bool)) (line_gene : List Line) :
    Except AsmErr (List EmitChunk) :=
  match get_fullcode tree line_gene with
  | .error e => .error e
  | .ok fullcode =>
    match get_label_pos line_gene fullcode with
    | .error e => .error e
    | .ok ldict =>
      match widenLoop fullcode line_gene ldict (3 * fullcode.length + 1)
          (initAddr fullcode line_gene) with
      | none => .error AsmErr.notFound
      | some (.error e) => .error e
      | some (.ok addr) => emit_go tree line_gene addr fullcode 0

end Labels

/-- C6 counterexample: on `start: add2 r0 r0; jumpl start` the resolver
does not compute offset `-7`: `get_label_pos` resolves the label to the
*last* `fullcode` index (4), so the widening pass records the slot as
`(width 8, offset +4)` — covering only the jump placeholder — not
`(8, -7)`. -/
theorem claimC6_cex :
    Labels.get_fullcode DEFAULT_OPCODE
      [⟨"label", [⟨VT.Other, 0⟩]⟩,
       ⟨"add2", [⟨VT.Register, 0⟩, ⟨VT.Register, 0⟩]⟩,
       ⟨"jumpl", [⟨VT.Other, 0⟩]⟩] =
      .ok [(0, .str []), (0, .str []),
        (20, .str [[.bits [b0, b0, b0, b0],
          .bits [b0, b0, b0, b0, b0, b0, b0, b0],
          .bits [b0, b0, b0, b0, b0, b0, b0, b0]]]),
        (4, .line ⟨"jumpl", [⟨VT.Other, 0⟩]⟩), (0, .str [])] ∧
    Labels.get_label_pos
      [⟨"label", [⟨VT.Other, 0⟩]⟩,
       ⟨"add2", [⟨VT.Register, 0⟩, ⟨VT.Register, 0⟩]⟩,
       ⟨"jumpl", [⟨VT.Other, 0⟩]⟩]
      [(0, .str []), (0, .str []),
        (20, .str [[.bits [b0, b0, b0, b0],
          .bits [b0, b0, b0, b0, b0, b0, b0, b0],
          .bits [b0, b0, b0, b0, b0, b0, b0, b0]]]),
        (4, .line ⟨"jumpl", [⟨VT.Other, 0⟩]⟩), (0, .str [])] = .ok [(0, 4)] ∧
    Labels.widenLoop
      [(0, .str []), (0, .str []),
        (20, .str [[.bits [b0, b0, b0, b0],
          .bits [b0, b0, b0, b0, b0, b0, b0, b0],
          .bits [b0, b0, b0, b0, b0, b0, b0, b0]]]),
        (4, .line ⟨"jumpl", [⟨VT.Other, 0⟩]⟩), (0, .str [])]
      [⟨"label", [⟨VT.Other, 0⟩]⟩,
       ⟨"add2", [⟨VT.Register, 0⟩, ⟨VT.Register, 0⟩]⟩,
       ⟨"jumpl", [⟨VT.Other, 0⟩]⟩] [(0, 4)] 16
      (Labels.initAddr
        [(0, .str []), (0, .str []),
          (20, .str [[.bits [b0, b0, b0, b0],
            .bits [b0, b0, b0, b0, b0, b0, b0, b0],
            .bits [b0, b0, b0, b0, b0, b0, b0, b0]]]),
          (4, .line ⟨"jumpl", [⟨VT.Other, 0⟩]⟩), (0, .str [])]
        [⟨"label", [⟨VT.Other, 0⟩]⟩,
         ⟨"add2", [⟨VT.Register, 0⟩, ⟨VT.Register, 0⟩]⟩,
         ⟨"jumpl", [⟨VT.Other, 0⟩]⟩]) =
      some (.ok [none, none, some (8, 4), none, none]) ∧
    ((8 : Nat), (4 : Int)) ≠ ((8 : Nat), (-7 : Int)) := by
  refine ⟨by decide, by decide, by decide, by decide⟩

/-- C6 (amended): on `start: add2 r0 r0; jumpl start` the resolver records
the jump slot as width 8 with offset `+4` (the label position resolves to
the final `fullcode` index and the distance covers only the jump
placeholder), whose address field would be `0 00000100`; the emission pass
then fails outright, because the placeholder entry sits at a `fullcode`
index with no corresponding source line (`line_gene.get(3).unwrap()`). -/
theorem claimC6_label_example :
    Labels.widenLoop
      [(0, .str []), (0, .str []),
        (20, .str [[.bits [b0, b0, b0, b0],
          .bits [b0, b0, b0, b0, b0, b0, b0, b0],
          .bits [b0, b0, b0, b0, b0, b0, b0, b0]]]),
        (4, .line ⟨"jumpl", [⟨VT.Other, 0⟩]⟩), (0, .str [])]
      [⟨"label", [⟨VT.Other, 0⟩]⟩,
       ⟨"add2", [⟨VT.Register, 0⟩, ⟨VT.Register, 0⟩]⟩,
       ⟨"jumpl", [⟨VT.Other, 0⟩]⟩] [(0, 4)] 16
      (Labels.initAddr
        [(0, .str []), (0, .str []),
          (20, .str [[.bits [b0, b0, b0, b0],
            .bits [b0, b0, b0, b0, b0, b0, b0, b0],
            .bits [b0, b0, b0, b0, b0, b0, b0, b0]]]),
          (4, .line ⟨"jumpl", [⟨VT.Other, 0⟩]⟩), (0, .str [])]
        [⟨"label", [⟨VT.Other, 0⟩]⟩,
         ⟨"add2", [⟨VT.Register, 0⟩, ⟨VT.Register, 0⟩]⟩,
         ⟨"jumpl", [⟨VT.Other, 0⟩]⟩]) =
      some (.ok [none, none, some (8, 4), none, none]) ∧
    Labels.widthMark 8 = some [b0] ∧
    BackEnd.binary_repr 4 8 true = .ok [b0, b0, b0, b0, b0, b1, b0, b0] ∧
    Labels.packets DEFAULT_OPCODE
      [⟨"label", [⟨VT.Other, 0⟩]⟩,
       ⟨"add2", [⟨VT.Register, 0⟩, ⟨VT.Register, 0⟩]⟩,
       ⟨"jumpl", [⟨VT.Other, 0⟩]⟩] = .error AsmErr.notFound := by
  refine ⟨by decide, by decide, by decide, by decide⟩

/-! ## Huffman code builder (util.rs `huffman`) -/

namespace Util

/-- A forest node's tree: the `(position, key)` pairs of its leaves. -/
abbrev HTree := List (List Bool × String)

/-- Rust `Ord` on `bool`-rendered code characters (`'0' < '1'`). -/
def cmpB (a b : Bool) : Ordering :=
  if a = b then .eq else if a = false then .lt else .gt

/-- Rust lexicographic `Ord` on code strings. -/
def cmpBits : List Bool → List Bool → Ordering
  | [], [] => .eq
  | [], _ :: _ => .lt
  | _ :: _, [] => .gt
  | a :: as_, b :: bs => (cmpB a b).then (cmpBits as_ bs)

/-- Rust `Ord` on a `(pos, key)` pair. -/
def cmpEntry (a b : List Bool × String) : Ordering :=
  (cmpBits a.1 b.1).then (compare a.2 b.2)

/-- Rust lexicographic `Ord` on a leaf vector. -/
def cmpTree : HTree → HTree → Ordering
  | [], [] => .eq
  | [], _ :: _ => .lt
  | _ :: _, [] => .gt
  | a :: as_, b :: bs => (cmpEntry a b).then (cmpTree as_ bs)

/-- Rust `Ord` on a forest node `(freq, tree)` — the order under which
`BinaryHeap<Reverse<_>>::pop` yields the minimum. -/
def cmpNode (a b : Nat × HTree) : Ordering :=
  (compare a.1 b.1).then (cmpTree a.2 b.2)

/-- Pop the heap minimum: the least node under `cmpNode`, together with the
remaining forest. -/
def extractMin : List (Nat × HTree) → Option ((Nat × HTree) × List (Nat × HTree))
  | [] => none
  | x :: xs =>
    match extractMin xs with
    | none => some (x, [])
    | some (m, rest) =>
      if cmpNode x m = .gt then some (m, x :: rest) else some (x, xs)

/-- One iteration of the merge loop: pop the two least nodes, graft them as
the `0` (first popped) and `1` (second popped) subtrees of a node whose
frequency is the sum. -/
def huffStep (forest : List (Nat × HTree)) : List (Nat × HTree) :=
  match extractMin forest with
  | none => forest
  | some (x, rest1) =>
    match extractMin rest1 with
    | none => forest
    | some (y, rest2) =>
      (x.1 + y.1, x.2.map (fun p => (false :: p.1, p.2)) ++
        y.2.map (fun p => (true :: p.1, p.2))) :: rest2

/-- The `while forest.len() > 1` loop, with enough fuel to settle. -/
def huffLoopF : Nat → List (Nat × HTree) → List (Nat × HTree)
  | 0, forest => forest
  | fuel + 1, forest =>
    if forest.length ≤ 1 then forest else huffLoopF fuel (huffStep forest)

/-- Stable insertion (before the first entry of no-smaller key) used to
model `itertools::sorted_by_key(|(pos, _)| pos.len())`. -/
def insertByLen (e : List Bool × String) : HTree → HTree
  | [] => [e]
  | y :: t => if e.1.length ≤ y.1.length then e :: y :: t else y :: insertByLen e t

/-- Stable sort of the final leaf list by code length. -/
def sortByLen (t : HTree) : HTree := t.foldr insertByLen []

/-- `huffman` (util.rs): build the forest of single-leaf nodes, special-case
the empty and singleton maps (the lone symbol receives code `"0"`), merge
until one tree remains, and sort its leaves by code length. -/
def huffman (ctr : List (String × Nat)) : HTree :=
  let forest := ctr.map (fun e => (e.2, [(([] : List Bool), e.1)]))
  match forest with
  | [] => []
  | [(_, t)] =>
    match t with
    | (_, k) :: rest => ([false], k) :: rest
    | [] => []
  | _ =>
    match (huffLoopF forest.length forest).head? with
    | some (_, t) => sortByLen t
    | none => []

end Util

/-- `a` is a prefix of `b`. -/
def pfx (a b : List Bool) : Prop := ∃ t, a ++ t = b

/-- Prefix-freedom of a list of codewords: no codeword a prefix of another
(equal codewords are excluded as well, each being a prefix of itself). -/
def codesPF (cs : List (List Bool)) : Prop :=
  cs.Pairwise (fun a b => ¬ pfx a b ∧ ¬ pfx b a)

/-- Prefix-freedom of a code table's `(pos, key)` entries. -/
def outPF (t : Util.HTree) : Prop := codesPF (t.map Prod.fst)

/-- Weight of key `k` under the frequency map. -/
def wOf (ctr : List (String × Nat)) (k : String) : Nat :=
  (((ctr.find? (fun e => e.1 == k)).map Prod.snd).getD 0)

/-- Expected (frequency-weighted) code length of a built table. -/
def outCost (ctr : List (String × Nat)) (t : Util.HTree) : Nat :=
  (t.map (fun e => wOf ctr e.2 * e.1.length)).sum

/-- Expected code length of a comparison code given as a function. -/
def fnCost (ctr : List (String × Nat)) (cf : String → List Bool) : Nat :=
  (ctr.map (fun e => e.2 * (cf e.1).length)).sum

/-- Prefix-freedom of a function code over the given keys. -/
def pfxFreeOn (keys : List String) (cf : String → List Bool) : Prop :=
  ∀ a ∈ keys, ∀ b ∈ keys, a ≠ b → ¬ pfx (cf a) (cf b)

/-- C8 counterexample: on the singleton map `{"a" ↦ 1}` the builder returns
the one-bit code `"0"` with expected length 1, but the code assigning the
empty string to `"a"` is (vacuously) prefix-free with expected length 0 —
so `huffman`'s output is not minimal among all prefix-free codes. -/
theorem claimC8_cex :
    Util.huffman [("a", 1)] = [([false], "a")] ∧
    pfxFreeOn ["a"] (fun _ => []) ∧
    fnCost [("a", 1)] (fun _ => []) = 0 ∧
    outCost [("a", 1)] (Util.huffman [("a", 1)]) = 1 ∧
    ¬ (outCost [("a", 1)] (Util.huffman [("a", 1)]) ≤ fnCost [("a", 1)] (fun _ => [])) := by
  refine ⟨by decide, ?_, by decide, by decide, by decide⟩
  intro a ha b hb hab
  simp at ha hb
  subst ha hb
  exact absurd rfl hab

/-! ## Cost of the greedy merge sequence -/

/-- Sorted insertion into an ascending list of weights. -/
def insertSorted (x : Nat) : List Nat → List Nat
  | [] => [x]
  | y :: t => if x ≤ y then x :: y :: t else y :: insertSorted x t

/-- Insertion sort of a weight list. -/
def sortNat (l : List Nat) : List Nat := l.foldr insertSorted []

/-- Fuelled total merge cost of a *sorted* weight list: repeatedly replace
the two least weights by their sum, accumulating the sums. -/
def mswGoF : Nat → List Nat → Nat
  | 0, _ => 0
  | fuel + 1, l =>
    match l with
    | w1 :: w2 :: t => (w1 + w2) + mswGoF fuel (insertSorted (w1 + w2) t)
    | _ => 0

/-- Total cost of the greedy (two-least-first) merge sequence of a weight
list — the quantity the Huffman loop accumulates. -/
def msw (l : List Nat) : Nat := mswGoF l.length (sortNat l)

theorem insertSorted_perm (x : Nat) (l : List Nat) :
    List.Perm (insertSorted x l) (x :: l) := by
  induction l with
  | nil => rfl
  | cons y t ih =>
    unfold insertSorted
    split
    · rfl
    · exact ((ih.cons y).trans (List.Perm.swap x y t))

theorem insertSorted_length (x : Nat) (l : List Nat) :
    (insertSorted x l).length = l.length + 1 :=
  (insertSorted_perm x l).length_eq

theorem insertSorted_sorted (x : Nat) (l : List Nat) (h : l.Sorted (· ≤ ·)) :
    (insertSorted x l).Sorted (· ≤ ·) := by
  induction l with
  | nil => simp [insertSorted]
  | cons y t ih =>
    unfold insertSorted
    rw [List.sorted_cons] at h
    split
    · rename_i hxy
      rw [List.sorted_cons]
      refine ⟨?_, List.sorted_cons.mpr h⟩
      intro b hb
      rcases List.mem_cons.mp hb with rfl | hb
      · exact hxy
      · exact le_trans hxy (h.1 b hb)
    · rename_i hxy
      rw [List.sorted_cons]
      refine ⟨?_, ih h.2⟩
      intro b hb
      rcases List.mem_cons.mp ((insertSorted_perm x t).mem_iff.mp hb) with rfl | hb
      · omega
      · exact h.1 b hb

theorem sortNat_perm (l : List Nat) : List.Perm (sortNat l) l := by
  induction l with
  | nil => rfl
  | cons x t ih => exact (insertSorted_perm x (sortNat t)).trans (ih.cons x)

theorem sortNat_sorted (l : List Nat) : (sortNat l).Sorted (· ≤ ·) := by
  induction l with
  | nil => simp [sortNat]
  | cons x t ih => exact insertSorted_sorted x (sortNat t) ih

theorem sortNat_congr (l l' : List Nat) (h : List.Perm l l') : sortNat l = sortNat l' :=
  List.eq_of_perm_of_sorted ((sortNat_perm l).trans (h.trans (sortNat_perm l').symm))
    (sortNat_sorted l) (sortNat_sorted l')

theorem sortNat_eq_self (l : List Nat) (h : l.Sorted (· ≤ ·)) : sortNat l = l :=
  List.eq_of_perm_of_sorted (sortNat_perm l) (sortNat_sorted l) h

theorem mswGoF_nil (f : Nat) : mswGoF f [] = 0 := by cases f <;> rfl

theorem mswGoF_single (f x : Nat) : mswGoF f [x] = 0 := by cases f <;> rfl

theorem mswGoF_congr : ∀ f f' l, l.length ≤ f → l.length ≤ f' →
    mswGoF f l = mswGoF f' l := by
  intro f
  induction f with
  | zero =>
    intro f' l hf _
    have hl : l = [] := List.eq_nil_of_length_eq_zero (Nat.le_zero.mp hf)
    subst hl
    rw [mswGoF_nil, mswGoF_nil]
  | succ f ih =>
    intro f' l hf hf'
    cases l with
    | nil => rw [mswGoF_nil, mswGoF_nil]
    | cons x t =>
      cases t with
      | nil => rw [mswGoF_single, mswGoF_single]
      | cons y t =>
        cases f' with
        | zero => simp at hf'
        | succ f' =>
          show (x + y) + mswGoF f (insertSorted (x + y) t) =
            (x + y) + mswGoF f' (insertSorted (x + y) t)
          have hl := insertSorted_length (x + y) t
          simp only [List.length_cons] at hf hf'
          rw [ih f' (insertSorted (x + y) t) (by omega) (by omega)]

theorem msw_congr (l l' : List Nat) (h : List.Perm l l') : msw l = msw l' := by
  unfold msw
  rw [sortNat_congr l l' h, h.length_eq]

theorem msw_nil : msw [] = 0 := rfl

theorem msw_singleton (x : Nat) : msw [x] = 0 := rfl

theorem msw_merge_min (a b : Nat) (l : List Nat) (hab : a ≤ b)
    (ha : ∀ x ∈ l, a ≤ x) (hb : ∀ x ∈ l, b ≤ x) :
    msw (a :: b :: l) = (a + b) + msw ((a + b) :: l) := by
  have hs1 : sortNat (a :: b :: l) = a :: b :: sortNat l := by
    have h2 : sortNat (b :: l) = b :: sortNat l := by
      show insertSorted b (sortNat l) = b :: sortNat l
      cases hsl : sortNat l with
      | nil => rfl
      | cons y t =>
        have : b ≤ y := hb y ((sortNat_perm l).mem_iff.mp (by rw [hsl]; exact .head t))
        simp [insertSorted, this]
    show insertSorted a (sortNat (b :: l)) = _
    rw [h2]
    simp [insertSorted, hab]
  have hs2 : sortNat ((a + b) :: l) = insertSorted (a + b) (sortNat l) := rfl
  unfold msw
  rw [hs1, hs2]
  simp only [List.length_cons]
  show (a + b) + mswGoF (l.length + 1) (insertSorted (a + b) (sortNat l)) = _
  rw [mswGoF_congr (l.length + 1) (insertSorted (a + b) (sortNat l)).length _
    (by rw [insertSorted_length, (sortNat_perm l).length_eq]) le_rfl]

theorem msw_pair (a b : Nat) : msw [a, b] = a + b := by
  by_cases h : a ≤ b
  · rw [msw_merge_min a b [] h (by simp) (by simp), msw_singleton]
    omega
  · rw [msw_congr [a, b] [b, a] (List.Perm.swap b a []),
      msw_merge_min b a [] (by omega) (by simp) (by simp), msw_singleton]
    omega
/-! ## Prefix order: basic lemmas and decidability -/

theorem pfx_nil (b : List Bool) : pfx [] b := ⟨b, rfl⟩

theorem pfx_refl (a : List Bool) : pfx a a := ⟨[], List.append_nil a⟩

theorem not_pfx_cons_nil (x : Bool) (a : List Bool) : ¬ pfx (x :: a) [] := by
  rintro ⟨t, ht⟩
  exact List.cons_ne_nil x (a ++ t) ht

theorem pfx_cons (x y : Bool) (a b : List Bool) :
    pfx (x :: a) (y :: b) ↔ x = y ∧ pfx a b := by
  constructor
  · rintro ⟨t, ht⟩
    rw [List.cons_append] at ht
    injection ht with h1 h2
    exact ⟨h1, t, h2⟩
  · rintro ⟨rfl, t, ht⟩
    exact ⟨t, by rw [List.cons_append, ht]⟩

theorem pfx_trans (a b c : List Bool) (h1 : pfx a b) (h2 : pfx b c) : pfx a c := by
  obtain ⟨t1, rfl⟩ := h1
  obtain ⟨t2, rfl⟩ := h2
  exact ⟨t1 ++ t2, (List.append_assoc a t1 t2).symm⟩

theorem pfx_length (a b : List Bool) (h : pfx a b) : a.length ≤ b.length := by
  obtain ⟨t, rfl⟩ := h
  simp

theorem pfx_of_eq_length (a b : List Bool) (h : pfx a b) (hl : b.length ≤ a.length) :
    a = b := by
  obtain ⟨t, rfl⟩ := h
  simp at hl
  simp [hl]

/-- `pfx` is decidable by structural recursion. -/
def pfxDec : (a b : List Bool) → Decidable (pfx a b)
  | [], b => isTrue ⟨b, rfl⟩
  | x :: a, [] => isFalse (not_pfx_cons_nil x a)
  | x :: a, y :: b =>
    letI := pfxDec a b
    decidable_of_iff (x = y ∧ pfx a b) (pfx_cons x y a b).symm

instance (a b : List Bool) : Decidable (pfx a b) := pfxDec a b

/-- Splitting a prefix of a one-longer list: the longer list extends the
shorter by exactly one trailing element. -/
theorem pfx_succ_length (a b : List Bool) (h : pfx a b)
    (hl : b.length = a.length + 1) : ∃ x, b = a ++ [x] := by
  obtain ⟨t, rfl⟩ := h
  rw [List.length_append] at hl
  have : t.length = 1 := by omega
  obtain ⟨x, hx⟩ := List.length_eq_one.mp this
  exact ⟨x, by rw [hx]⟩

/-- Grafting a fixed bit in front of every codeword of a prefix-free list
keeps it prefix-free, and codewords grafted with different bits are never
prefixes of one another. -/
theorem codesPF_graft (xs ys : List (List Bool))
    (hx : codesPF xs) (hy : codesPF ys) :
    codesPF (xs.map (false :: ·) ++ ys.map (true :: ·)) := by
  unfold codesPF at *
  rw [List.pairwise_append]
  refine ⟨?_, ?_, ?_⟩
  · rw [List.pairwise_map]
    refine hx.imp ?_
    intro a b hab
    constructor
    · intro h
      exact hab.1 ((pfx_cons false false a b).mp h).2
    · intro h
      exact hab.2 ((pfx_cons false false b a).mp h).2
  · rw [List.pairwise_map]
    refine hy.imp ?_
    intro a b hab
    constructor
    · intro h
      exact hab.1 ((pfx_cons true true a b).mp h).2
    · intro h
      exact hab.2 ((pfx_cons true true b a).mp h).2
  · intro a ha b hb
    simp only [List.mem_map] at ha hb
    obtain ⟨a0, _, rfl⟩ := ha
    obtain ⟨b0, _, rfl⟩ := hb
    constructor
    · intro h
      exact absurd ((pfx_cons false true a0 b0).mp h).1 (by simp)
    · intro h
      exact absurd ((pfx_cons true false b0 a0).mp h).1 (by simp)

/-! ## The heap minimum: `extractMin` facts -/

namespace Util

theorem extractMin_eq_none (l : List (Nat × HTree)) :
    extractMin l = none ↔ l = [] := by
  cases l with
  | nil => simp [extractMin]
  | cons x xs =>
    simp only [extractMin]
    constructor
    · intro h
      cases hx : extractMin xs with
      | none => rw [hx] at h; simp at h
      | some p =>
        rw [hx] at h
        obtain ⟨m, rest⟩ := p
        by_cases hc : cmpNode x m = .gt <;> simp [hc] at h
    · intro h
      exact absurd h (List.cons_ne_nil x xs)

theorem extractMin_perm (l : List (Nat × HTree)) (x : Nat × HTree)
    (rest : List (Nat × HTree)) (h : extractMin l = some (x, rest)) :
    List.Perm l (x :: rest) := by
  induction l generalizing x rest with
  | nil => simp [extractMin] at h
  | cons a xs ih =>
    simp only [extractMin] at h
    cases hx : extractMin xs with
    | none =>
      rw [hx] at h
      have hnil : xs = [] := (extractMin_eq_none xs).mp hx
      injection h with h
      injection h with h1 h2
      subst h1; subst h2; subst hnil
      rfl
    | some p =>
      obtain ⟨m, rest'⟩ := p
      rw [hx] at h
      dsimp only at h
      have hperm := ih m rest' hx
      by_cases hc : cmpNode a m = .gt
      · rw [if_pos hc] at h
        injection h with h
        injection h with h1 h2
        subst h1; subst h2
        exact (hperm.cons a).trans (List.Perm.swap m a rest')
      · rw [if_neg hc] at h
        injection h with h
        injection h with h1 h2
        subst h1; subst h2
        rfl

theorem cmpNode_gt_le (a m : Nat × HTree) (h : cmpNode a m = .gt) : m.1 ≤ a.1 := by
  unfold cmpNode at h
  cases hc : compare a.1 m.1 with
  | lt => rw [hc] at h; simp [Ordering.then] at h
  | eq => exact Nat.le_of_eq (Nat.compare_eq_eq.mp hc).symm
  | gt => exact Nat.le_of_lt (Nat.compare_eq_gt.mp hc)

theorem cmpNode_not_gt_le (a m : Nat × HTree) (h : cmpNode a m ≠ .gt) : a.1 ≤ m.1 := by
  unfold cmpNode at h
  cases hc : compare a.1 m.1 with
  | lt => exact Nat.le_of_lt (Nat.compare_eq_lt.mp hc)
  | eq => exact Nat.le_of_eq (Nat.compare_eq_eq.mp hc)
  | gt => rw [hc] at h; simp [Ordering.then] at h

theorem extractMin_min (l : List (Nat × HTree)) (x : Nat × HTree)
    (rest : List (Nat × HTree)) (h : extractMin l = some (x, rest)) :
    ∀ y ∈ l, x.1 ≤ y.1 := by
  induction l generalizing x rest with
  | nil => simp [extractMin] at h
  | cons a xs ih =>
    simp only [extractMin] at h
    cases hx : extractMin xs with
    | none =>
      rw [hx] at h
      have hnil : xs = [] := (extractMin_eq_none xs).mp hx
      injection h with h
      injection h with h1 h2
      subst h1; subst hnil
      intro y hy
      rcases List.mem_cons.mp hy with rfl | hy
      · exact le_rfl
      · simp at hy
    | some p =>
      obtain ⟨m, rest'⟩ := p
      rw [hx] at h
      dsimp only at h
      have hmin := ih m rest' hx
      by_cases hc : cmpNode a m = .gt
      · rw [if_pos hc] at h
        injection h with h
        injection h with h1 h2
        subst h1
        intro y hy
        rcases List.mem_cons.mp hy with rfl | hy
        · exact cmpNode_gt_le y m hc
        · exact hmin y hy
      · rw [if_neg hc] at h
        injection h with h
        injection h with h1 h2
        subst h1; subst h2
        intro y hy
        rcases List.mem_cons.mp hy with rfl | hy
        · exact le_rfl
        · exact le_trans (cmpNode_not_gt_le a m hc) (hmin y hy)

end Util
/-! ## Forest invariants for the Huffman merge loop -/

/-- Total weight of a tree's keys under weight function `w`. -/
def treeKeysW (w : String → Nat) (t : Util.HTree) : Nat :=
  (t.map (fun e => w e.2)).sum

/-- Weighted code length of a tree's leaves under weight function `w`. -/
def treeCost (w : String → Nat) (t : Util.HTree) : Nat :=
  (t.map (fun e => w e.2 * e.1.length)).sum

/-- The keys of a tree, in leaf order. -/
def keysT (t : Util.HTree) : List String := t.map Prod.snd

/-- All keys of a forest. -/
def keysF (F : List (Nat × Util.HTree)) : List String :=
  (F.map (fun nd => keysT nd.2)).flatten

/-- Invariant of a forest node: its leaf codes are prefix-free, its cached
frequency is the total weight of its keys, and it has at least one leaf. -/
def nodeInv (w : String → Nat) (nd : Nat × Util.HTree) : Prop :=
  codesPF (nd.2.map Prod.fst) ∧ nd.1 = treeKeysW w nd.2 ∧ nd.2 ≠ []

theorem treeCost_graft (w : String → Nat) (bb : Bool) (t : Util.HTree) :
    treeCost w (t.map (fun p => (bb :: p.1, p.2))) = treeCost w t + treeKeysW w t := by
  induction t with
  | nil => rfl
  | cons e t ih =>
    simp only [treeCost, treeKeysW, List.map_cons, List.map_map, List.sum_cons] at *
    rw [ih]
    simp only [List.length_cons, Nat.mul_succ]
    omega

theorem treeKeysW_graft (w : String → Nat) (bb : Bool) (t : Util.HTree) :
    treeKeysW w (t.map (fun p => (bb :: p.1, p.2))) = treeKeysW w t := by
  simp only [treeKeysW, List.map_map]
  rfl

theorem keysT_graft (bb : Bool) (t : Util.HTree) :
    keysT (t.map (fun p => (bb :: p.1, p.2))) = keysT t := by
  simp only [keysT, List.map_map]
  rfl

theorem treeCost_append (w : String → Nat) (s t : Util.HTree) :
    treeCost w (s ++ t) = treeCost w s + treeCost w t := by
  simp [treeCost]

theorem treeKeysW_append (w : String → Nat) (s t : Util.HTree) :
    treeKeysW w (s ++ t) = treeKeysW w s + treeKeysW w t := by
  simp [treeKeysW]

theorem keysT_append (s t : Util.HTree) : keysT (s ++ t) = keysT s ++ keysT t := by
  simp [keysT]

/-- The merge loop collapses a forest of invariant-satisfying nodes into a
single node that satisfies the invariant, carries all the keys, and whose
weighted code length is the forest's code length plus the greedy merge cost
of the forest's frequencies. -/
theorem huffLoop_inv (w : String → Nat) : ∀ fuel F, F.length ≤ fuel → 1 ≤ F.length →
    (∀ nd ∈ F, nodeInv w nd) →
    ∃ nd, Util.huffLoopF fuel F = [nd] ∧ nodeInv w nd ∧
      List.Perm (keysT nd.2) (keysF F) ∧
      treeCost w nd.2 = (F.map (fun n => treeCost w n.2)).sum + msw (F.map Prod.fst) := by
  intro fuel
  induction fuel with
  | zero =>
    intro F hf h1 _
    simp at hf
    rw [hf] at h1
    simp at h1
  | succ fuel ih =>
    intro F hf h1 hinv
    by_cases hlen : F.length ≤ 1
    · have hlen1 : F.length = 1 := le_antisymm hlen h1
      obtain ⟨nd, rfl⟩ := List.length_eq_one.mp hlen1
      refine ⟨nd, ?_, hinv nd (List.mem_singleton_self nd), ?_, ?_⟩
      · simp [Util.huffLoopF]
      · simp [keysF]
      · simp [msw_singleton]
    · have hFne : F ≠ [] := by
        intro h
        rw [h] at hlen
        simp at hlen
      cases hex1 : Util.extractMin F with
      | none => exact absurd ((Util.extractMin_eq_none F).mp hex1) hFne
      | some p1 =>
        obtain ⟨x, r1⟩ := p1
        have hp1 := Util.extractMin_perm F x r1 hex1
        have hmin1 := Util.extractMin_min F x r1 hex1
        have hr1len : r1.length + 1 = F.length := by
          have := hp1.length_eq
          simp at this
          omega
        have hr1ne : r1 ≠ [] := by
          intro h
          rw [h] at hr1len
          simp at hr1len
          omega
        cases hex2 : Util.extractMin r1 with
        | none => exact absurd ((Util.extractMin_eq_none r1).mp hex2) hr1ne
        | some p2 =>
          obtain ⟨y, r2⟩ := p2
          have hp2 := Util.extractMin_perm r1 y r2 hex2
          have hmin2 := Util.extractMin_min r1 y r2 hex2
          have hperm : List.Perm F (x :: y :: r2) := hp1.trans (hp2.cons x)
          have hyF : y ∈ F := hp1.mem_iff.mpr (List.mem_cons_of_mem x (hp2.mem_iff.mpr (.head r2)))
          have hr2F : ∀ nd ∈ r2, nd ∈ F := by
            intro nd hnd
            exact hp1.mem_iff.mpr
              (List.mem_cons_of_mem x (hp2.mem_iff.mpr (List.mem_cons_of_mem y hnd)))
          have hxF : x ∈ F := hp1.mem_iff.mpr (.head r1)
          have hinvx := hinv x hxF
          have hinvy := hinv y hyF
          have hstep : Util.huffStep F =
              (x.1 + y.1, x.2.map (fun p => (false :: p.1, p.2)) ++
                y.2.map (fun p => (true :: p.1, p.2))) :: r2 := by
            simp only [Util.huffStep, hex1, hex2]
          have hr2len : r2.length + 1 = r1.length := by
            have := hp2.length_eq
            simp at this
            omega
          have hloop : Util.huffLoopF (fuel + 1) F =
              Util.huffLoopF fuel (Util.huffStep F) := by
            simp only [Util.huffLoopF, if_neg hlen]
          set mgd : Nat × Util.HTree :=
            (x.1 + y.1, x.2.map (fun p => (false :: p.1, p.2)) ++
              y.2.map (fun p => (true :: p.1, p.2))) with hmgd
          have hinvm : nodeInv w mgd := by
            refine ⟨?_, ?_, ?_⟩
            · have hg := codesPF_graft (x.2.map Prod.fst) (y.2.map Prod.fst)
                hinvx.1 hinvy.1
              have heq : mgd.2.map Prod.fst =
                  (x.2.map Prod.fst).map (false :: ·) ++
                  (y.2.map Prod.fst).map (true :: ·) := by
                simp only [hmgd, List.map_append, List.map_map]
                rfl
              rw [heq]
              exact hg
            · show x.1 + y.1 = treeKeysW w mgd.2
              rw [show mgd.2 = x.2.map (fun p => (false :: p.1, p.2)) ++
                y.2.map (fun p => (true :: p.1, p.2)) from rfl]
              rw [treeKeysW_append, treeKeysW_graft, treeKeysW_graft,
                ← hinvx.2.1, ← hinvy.2.1]
            · show mgd.2 ≠ []
              have := hinvx.2.2
              simp [hmgd]
              intro hx0
              exact absurd hx0 this
          have hinv' : ∀ nd ∈ mgd :: r2, nodeInv w nd := by
            intro nd hnd
            rcases List.mem_cons.mp hnd with rfl | hnd
            · exact hinvm
            · exact hinv nd (hr2F nd hnd)
          have hlen' : (mgd :: r2).length ≤ fuel := by
            simp only [List.length_cons]
            omega
          have h1' : 1 ≤ (mgd :: r2).length := by simp
          obtain ⟨nd, hnd1, hnd2, hnd3, hnd4⟩ := ih (mgd :: r2) hlen' h1' hinv'
          refine ⟨nd, ?_, hnd2, ?_, ?_⟩
          · rw [hloop, hstep]
            exact hnd1
          · -- keys
            refine hnd3.trans ?_
            have h1 : keysF (mgd :: r2) = (keysT x.2 ++ keysT y.2) ++ keysF r2 := by
              show keysT mgd.2 ++ keysF r2 = _
              rw [show mgd.2 = x.2.map (fun p => (false :: p.1, p.2)) ++
                y.2.map (fun p => (true :: p.1, p.2)) from rfl]
              rw [keysT_append, keysT_graft, keysT_graft]
            rw [h1]
            have h2 : keysF (x :: y :: r2) = keysT x.2 ++ (keysT y.2 ++ keysF r2) := rfl
            have h3 : List.Perm (keysF (x :: y :: r2)) (keysF F) := by
              unfold keysF
              exact List.Perm.symm (List.Perm.flatten
                (hperm.map (fun nd0 => keysT nd0.2)))
            rw [List.append_assoc]
            rw [← h2]
            exact h3
          · -- cost
            rw [hnd4]
            have hsum : ((mgd :: r2).map (fun n => treeCost w n.2)).sum =
                treeCost w x.2 + treeCost w y.2 + x.1 + y.1 +
                  (r2.map (fun n => treeCost w n.2)).sum := by
              simp only [List.map_cons, List.sum_cons]
              rw [treeCost_append, treeCost_graft, treeCost_graft,
                ← hinvx.2.1, ← hinvy.2.1]
              omega
            have hsumF : (F.map (fun n => treeCost w n.2)).sum =
                treeCost w x.2 + treeCost w y.2 +
                  (r2.map (fun n => treeCost w n.2)).sum := by
              have := (hperm.map (fun n => treeCost w n.2)).sum_eq
              simp only [List.map_cons, List.sum_cons] at this
              omega
            have hxy : x.1 ≤ y.1 := hmin1 y hyF
            have hxr : ∀ v ∈ r2.map Prod.fst, x.1 ≤ v := by
              intro v hv
              obtain ⟨nd', hnd', rfl⟩ := List.mem_map.mp hv
              exact hmin1 nd' (hr2F nd' hnd')
            have hyr : ∀ v ∈ r2.map Prod.fst, y.1 ≤ v := by
              intro v hv
              obtain ⟨nd', hnd', rfl⟩ := List.mem_map.mp hv
              exact hmin2 nd' (hp2.mem_iff.mpr (List.mem_cons_of_mem y hnd'))
            have hmswF : msw (F.map Prod.fst) =
                (x.1 + y.1) + msw ((x.1 + y.1) :: r2.map Prod.fst) := by
              rw [msw_congr _ _ (hperm.map Prod.fst)]
              exact msw_merge_min x.1 y.1 (r2.map Prod.fst) hxy hxr hyr
            have hfst : (mgd :: r2).map Prod.fst = (x.1 + y.1) :: r2.map Prod.fst := rfl
            rw [hfst, hsum, hsumF, hmswF]
            omega
/-! ## The built table: prefix-freedom, key coverage, and cost -/

theorem wOf_eq (ctr : List (String × Nat)) (k : String) (n : Nat)
    (hnd : (ctr.map Prod.fst).Nodup) (hmem : (k, n) ∈ ctr) : wOf ctr k = n := by
  induction ctr with
  | nil => simp at hmem
  | cons e tl ih =>
    simp only [List.map_cons, List.nodup_cons] at hnd
    rcases List.mem_cons.mp hmem with rfl | hmem
    · simp [wOf, List.find?]
    · have hne : ¬ (e.1 == k) = true := by
        intro h
        rw [beq_iff_eq] at h
        exact hnd.1 (h ▸ List.mem_map_of_mem Prod.fst hmem)
      have ih' := ih hnd.2 hmem
      simp only [wOf, List.find?, hne] at ih' ⊢
      exact ih'

theorem insertByLen_perm (e : List Bool × String) (t : Util.HTree) :
    List.Perm (Util.insertByLen e t) (e :: t) := by
  induction t with
  | nil => rfl
  | cons y s ih =>
    unfold Util.insertByLen
    split
    · rfl
    · exact ((ih.cons y).trans (List.Perm.swap e y s))

theorem sortByLen_perm (t : Util.HTree) : List.Perm (Util.sortByLen t) t := by
  induction t with
  | nil => rfl
  | cons e s ih => exact (insertByLen_perm e (Util.sortByLen s)).trans (ih.cons e)

theorem keysF_leaves (ctr : List (String × Nat)) :
    keysF (ctr.map (fun e => (e.2, [(([] : List Bool), e.1)]))) = ctr.map Prod.fst := by
  induction ctr with
  | nil => rfl
  | cons e tl ih =>
    simp only [List.map_cons]
    show keysT [([], e.1)] ++ keysF (tl.map _) = e.1 :: tl.map Prod.fst
    rw [ih]
    rfl

theorem sum_treeCost_leaves (w : String → Nat) (ctr : List (String × Nat)) :
    ((ctr.map (fun e => (e.2, [(([] : List Bool), e.1)]))).map
      (fun n => treeCost w n.2)).sum = 0 := by
  induction ctr with
  | nil => rfl
  | cons e tl ih =>
    simp only [List.map_cons, List.sum_cons]
    rw [ih]
    simp [treeCost]

theorem fst_leaves (ctr : List (String × Nat)) :
    (ctr.map (fun e => (e.2, [(([] : List Bool), e.1)]))).map Prod.fst =
      ctr.map Prod.snd := by
  rw [List.map_map]
  rfl

/-- For a frequency map with at least two (distinct) keys, `huffman` returns
a prefix-free table covering exactly the map's keys whose weighted code
length equals the greedy merge cost of the frequencies. -/
theorem huffman_big (ctr : List (String × Nat)) (hnd : (ctr.map Prod.fst).Nodup)
    (h2 : 2 ≤ ctr.length) :
    outPF (Util.huffman ctr) ∧
    List.Perm ((Util.huffman ctr).map Prod.snd) (ctr.map Prod.fst) ∧
    outCost ctr (Util.huffman ctr) = msw (ctr.map Prod.snd) := by
  cases ctr with
  | nil => simp at h2
  | cons e1 t1 =>
    cases t1 with
    | nil => simp at h2
    | cons e2 tl =>
      set ctr : List (String × Nat) := e1 :: e2 :: tl with hctr
      set F0 : List (Nat × Util.HTree) :=
        ctr.map (fun e => (e.2, [(([] : List Bool), e.1)])) with hF0
      have hinv0 : ∀ nd ∈ F0, nodeInv (wOf ctr) nd := by
        intro nd hnd'
        rw [hF0] at hnd'
        obtain ⟨e, he, rfl⟩ := List.mem_map.mp hnd'
        refine ⟨?_, ?_, by simp⟩
        · simp [codesPF]
        · show e.2 = treeKeysW (wOf ctr) [([], e.1)]
          have : wOf ctr e.1 = e.2 := wOf_eq ctr e.1 e.2 hnd he
          simp [treeKeysW, this]
      have h10 : 1 ≤ F0.length := by
        rw [hF0, hctr]
        simp
      obtain ⟨nd, hL, hinvn, hkeys, hcost⟩ :=
        huffLoop_inv (wOf ctr) F0.length F0 le_rfl h10 hinv0
      obtain ⟨ndf, ndt⟩ := nd
      have hh : Util.huffman ctr = Util.sortByLen ndt := by
        show Util.huffman (e1 :: e2 :: tl) = Util.sortByLen ndt
        have hred : Util.huffman (e1 :: e2 :: tl) =
            (match (Util.huffLoopF F0.length F0).head? with
             | some (_, t) => Util.sortByLen t
             | none => []) := rfl
        rw [hred, hL]
        rfl
      have hpermS : List.Perm (Util.sortByLen ndt) ndt := sortByLen_perm ndt
      refine ⟨?_, ?_, ?_⟩
      · rw [hh]
        unfold outPF codesPF
        have hsym : Symmetric (fun a b : List Bool => ¬ pfx a b ∧ ¬ pfx b a) := by
          intro a b h
          exact ⟨h.2, h.1⟩
        exact ((hpermS.map Prod.fst).pairwise_iff (fun h => hsym h)).mpr hinvn.1
      · rw [hh]
        refine (hpermS.map Prod.snd).trans ?_
        refine List.Perm.trans ?_ (hkeys.trans ?_)
        · rfl
        · rw [hF0, keysF_leaves]
      · rw [hh]
        show treeCost (wOf ctr) (Util.sortByLen ndt) = _
        have : treeCost (wOf ctr) (Util.sortByLen ndt) = treeCost (wOf ctr) ndt := by
          unfold treeCost
          exact (hpermS.map (fun e => wOf ctr e.2 * e.1.length)).sum_eq
        rw [this, hcost]
        rw [hF0, sum_treeCost_leaves, fst_leaves]
        simp
/-! ## Lower bound: any prefix-free code costs at least the greedy merge cost -/

/-- Weighted code length of a list of `(weight, codeword)` pairs. -/
def pairCost (P : List (Nat × List Bool)) : Nat :=
  (P.map (fun p => p.1 * p.2.length)).sum

/-- Total codeword length of a list of `(weight, codeword)` pairs. -/
def lenSum (P : List (Nat × List Bool)) : Nat :=
  (P.map (fun p => p.2.length)).sum

/-- Prefix-freedom of the codewords of a pair list. -/
def pairsPF (P : List (Nat × List Bool)) : Prop := codesPF (P.map Prod.snd)

theorem pfxRel_symm : Symmetric (fun a b : List Bool => ¬ pfx a b ∧ ¬ pfx b a) := by
  intro a b h
  exact ⟨h.2, h.1⟩

theorem pairsPF_perm (P Q : List (Nat × List Bool)) (h : List.Perm P Q) :
    pairsPF P ↔ pairsPF Q :=
  (h.map Prod.snd).pairwise_iff (fun h' => pfxRel_symm h')

theorem pairCost_perm (P Q : List (Nat × List Bool)) (h : List.Perm P Q) :
    pairCost P = pairCost Q := by
  unfold pairCost
  exact (h.map (fun p => p.1 * p.2.length)).sum_eq

theorem lenSum_perm (P Q : List (Nat × List Bool)) (h : List.Perm P Q) :
    lenSum P = lenSum Q := by
  unfold lenSum
  exact (h.map (fun p => p.2.length)).sum_eq

theorem pairCost_cons (p : Nat × List Bool) (T : List (Nat × List Bool)) :
    pairCost (p :: T) = p.1 * p.2.length + pairCost T := by
  simp [pairCost]

theorem lenSum_cons (p : Nat × List Bool) (T : List (Nat × List Bool)) :
    lenSum (p :: T) = p.2.length + lenSum T := by
  simp [lenSum]

theorem lenSum_eq_of_snd (S T : List (Nat × List Bool))
    (h : S.map Prod.snd = T.map Prod.snd) : lenSum S = lenSum T := by
  have hs : lenSum S = ((S.map Prod.snd).map List.length).sum := by
    rw [List.map_map]
    rfl
  have ht : lenSum T = ((T.map Prod.snd).map List.length).sum := by
    rw [List.map_map]
    rfl
  rw [hs, ht, h]

theorem codes_ne_nil (P : List (Nat × List Bool)) (h2 : 2 ≤ P.length)
    (hPF : pairsPF P) : ∀ p ∈ P, p.2 ≠ [] := by
  intro p hp hnil
  obtain ⟨T, hX⟩ : ∃ T, List.Perm P (p :: T) := ⟨_, List.perm_cons_erase hp⟩
  have hT : T.length + 1 = P.length := by
    have := hX.length_eq
    simp at this
    omega
  have hTne : T ≠ [] := by
    intro h
    rw [h] at hT
    simp at hT
    omega
  obtain ⟨q, hq⟩ := List.exists_mem_of_ne_nil _ hTne
  have hPFX : pairsPF (p :: T) := (pairsPF_perm _ _ hX).mp hPF
  unfold pairsPF codesPF at hPFX
  rw [List.map_cons, List.pairwise_cons] at hPFX
  have := (hPFX.1 q.2 (List.mem_map_of_mem Prod.snd hq)).1
  rw [hnil] at this
  exact this (pfx_nil q.2)

theorem exists_max_entry (P : List (Nat × List Bool)) (h : P ≠ []) :
    ∃ p ∈ P, ∀ q ∈ P, q.2.length ≤ p.2.length := by
  induction P with
  | nil => exact absurd rfl h
  | cons a tl ih =>
    cases htl : tl with
    | nil =>
      refine ⟨a, .head _, ?_⟩
      intro q hq
      rcases List.mem_cons.mp hq with rfl | hq
      · exact le_rfl
      · simp at hq
    | cons b tl2 =>
      obtain ⟨p, hpmem, hpmax⟩ := ih (by simp [htl])
      rw [← htl] at *
      by_cases hc : p.2.length ≤ a.2.length
      · refine ⟨a, .head _, ?_⟩
        intro q hq
        rcases List.mem_cons.mp hq with rfl | hq
        · exact le_rfl
        · exact le_trans (hpmax q hq) hc
      · refine ⟨p, List.mem_cons_of_mem a hpmem, ?_⟩
        intro q hq
        rcases List.mem_cons.mp hq with rfl | hq
        · omega
        · exact hpmax q hq

theorem exists_min_fst (P : List (Nat × List Bool)) (h : P ≠ []) :
    ∃ p ∈ P, ∀ q ∈ P, p.1 ≤ q.1 := by
  induction P with
  | nil => exact absurd rfl h
  | cons a tl ih =>
    cases htl : tl with
    | nil =>
      refine ⟨a, .head _, ?_⟩
      intro q hq
      rcases List.mem_cons.mp hq with rfl | hq
      · exact le_rfl
      · simp at hq
    | cons b tl2 =>
      obtain ⟨p, hpmem, hpmin⟩ := ih (by simp [htl])
      rw [← htl] at *
      by_cases hc : a.1 ≤ p.1
      · refine ⟨a, .head _, ?_⟩
        intro q hq
        rcases List.mem_cons.mp hq with rfl | hq
        · exact le_rfl
        · exact le_trans hc (hpmin q hq)
      · refine ⟨p, List.mem_cons_of_mem a hpmem, ?_⟩
        intro q hq
        rcases List.mem_cons.mp hq with rfl | hq
        · omega
        · exact hpmin q hq

/-- Moving a weight `vnew` onto the entry that held `v` (with codeword
`cd`): the codewords stay in place, the weight multiset trades `vnew`
for `v`, and the cost changes by the swapped products. -/
theorem replaceW (T : List (Nat × List Bool)) (v vnew : Nat) (cd : List Bool) :
    (v, cd) ∈ T →
    ∃ T', T'.map Prod.snd = T.map Prod.snd ∧
      List.Perm (vnew :: T.map Prod.fst) (v :: T'.map Prod.fst) ∧
      pairCost T' + v * cd.length = pairCost T + vnew * cd.length := by
  induction T with
  | nil => intro h; simp at h
  | cons t tl ih =>
    intro hmem
    rcases List.mem_cons.mp hmem with heq | hmem'
    · subst heq
      refine ⟨(vnew, cd) :: tl, by simp, ?_, ?_⟩
      · exact List.Perm.swap v vnew (tl.map Prod.fst)
      · simp only [pairCost_cons]
        omega
    · obtain ⟨T2, hsnd, hperm, hcost⟩ := ih hmem'
      refine ⟨t :: T2, ?_, ?_, ?_⟩
      · simp [hsnd]
      · refine (List.Perm.swap t.1 vnew (tl.map Prod.fst)).trans ?_
        refine (hperm.cons t.1).trans ?_
        exact List.Perm.swap v t.1 (T2.map Prod.fst)
      · rw [pairCost_cons, pairCost_cons]
        omega

/-- Bring the least available weight onto the front entry (whose codeword
is longest): codewords stay in place, the weight multiset is preserved,
the cost does not increase, and the front weight is a lower bound for all
the others. -/
theorem frontSwap (x1 : Nat × List Bool) (T : List (Nat × List Bool))
    (hmax : ∀ q ∈ T, q.2.length ≤ x1.2.length) :
    ∃ a T', T'.map Prod.snd = T.map Prod.snd ∧
      List.Perm ((x1 :: T).map Prod.fst) (a :: T'.map Prod.fst) ∧
      pairCost ((a, x1.2) :: T') ≤ pairCost (x1 :: T) ∧
      (∀ v ∈ T'.map Prod.fst, a ≤ v) ∧ a ≤ x1.1 := by
  by_cases hx : ∀ q ∈ T, x1.1 ≤ q.1
  · refine ⟨x1.1, T, rfl, List.Perm.refl _, le_of_eq rfl, ?_, le_rfl⟩
    intro v hv
    obtain ⟨q, hq, rfl⟩ := List.mem_map.mp hv
    exact hx q hq
  · push_neg at hx
    obtain ⟨q0, hq0, hq0lt⟩ := hx
    have hTne : T ≠ [] := by
      intro h
      rw [h] at hq0
      simp at hq0
    obtain ⟨m, hmmem, hmmin⟩ := exists_min_fst T hTne
    have hma : m.1 ≤ x1.1 := le_of_lt (lt_of_le_of_lt (hmmin q0 hq0) hq0lt)
    obtain ⟨T', hsnd, hperm, hcost⟩ := replaceW T m.1 x1.1 m.2 hmmem
    refine ⟨m.1, T', hsnd, hperm, ?_, ?_, hma⟩
    · simp only [pairCost_cons]
      have hlm : m.2.length ≤ x1.2.length := hmax m hmmem
      have hkey : m.1 * x1.2.length + x1.1 * m.2.length ≤
          m.1 * m.2.length + x1.1 * x1.2.length :=
        mul_add_mul_le_mul_add_mul hma hlm
      omega
    · intro v hv
      have hv' : v ∈ m.1 :: T'.map Prod.fst := List.mem_cons_of_mem m.1 hv
      have hv2 : v ∈ x1.1 :: T.map Prod.fst := hperm.symm.mem_iff.mp hv'
      rcases List.mem_cons.mp hv2 with rfl | hv3
      · exact hma
      · obtain ⟨q, hq, rfl⟩ := List.mem_map.mp hv3
        exact hmmin q hq
/-- Any prefix-free assignment of codewords to weights costs at least the
greedy (Huffman) merge cost of the weights. Strong induction on the total
codeword length: a longest codeword either can be shortened (its parent
extends no other codeword) or has a sibling; in the latter case the two
least weights are swapped onto the sibling pair (never increasing the
cost) and the pair is merged. -/
theorem msw_le_pairCost : ∀ n P, lenSum P ≤ n → 2 ≤ P.length → pairsPF P →
    msw (P.map Prod.fst) ≤ pairCost P := by
  intro n
  induction n with
  | zero =>
    intro P hf h2 hPF
    cases P with
    | nil => simp at h2
    | cons p tl =>
      have hne := codes_ne_nil (p :: tl) h2 hPF p (.head tl)
      have h1 : 1 ≤ p.2.length := List.length_pos.mpr hne
      rw [lenSum_cons] at hf
      omega
  | succ n ih =>
    intro P hf h2 hPF
    by_cases hP2 : P.length = 2
    · obtain ⟨p, q, rfl⟩ := List.length_eq_two.mp hP2
      have hp1 : 1 ≤ p.2.length := List.length_pos.mpr (codes_ne_nil _ h2 hPF p (by simp))
      have hq1 : 1 ≤ q.2.length := List.length_pos.mpr (codes_ne_nil _ h2 hPF q (by simp))
      have hm : List.map Prod.fst [p, q] = [p.1, q.1] := rfl
      rw [hm, msw_pair]
      have h3 : p.1 * 1 ≤ p.1 * p.2.length := Nat.mul_le_mul_left p.1 hp1
      have h4 : q.1 * 1 ≤ q.1 * q.2.length := Nat.mul_le_mul_left q.1 hq1
      simp only [pairCost, List.map_cons, List.map_nil, List.sum_cons, List.sum_nil]
      omega
    · have hP3 : 3 ≤ P.length := by omega
      have hne := codes_ne_nil P h2 hPF
      have hPne : P ≠ [] := by
        intro h
        rw [h] at h2
        simp at h2
      obtain ⟨pm, hpmem, hpmax⟩ := exists_max_entry P hPne
      obtain ⟨T, hX⟩ : ∃ T, List.Perm P (pm :: T) := ⟨_, List.perm_cons_erase hpmem⟩
      have hTlen : T.length + 1 = P.length := by
        have := hX.length_eq
        simp at this
        omega
      have hPFX : pairsPF (pm :: T) := (pairsPF_perm _ _ hX).mp hPF
      have hmaxT : ∀ q ∈ T, q.2.length ≤ pm.2.length := by
        intro q hq
        exact hpmax q (hX.mem_iff.mpr (List.mem_cons_of_mem pm hq))
      have hcne : pm.2 ≠ [] := hne pm hpmem
      set c := pm.2 with hc
      have hL1 : 1 ≤ c.length := List.length_pos.mpr hcne
      set c' := c.dropLast with hcp
      have hcplen : c'.length + 1 = c.length := by
        rw [hcp]
        have := c.length_dropLast
        omega
      set bl := c.getLast hcne with hbl
      have hcsplit : c' ++ [bl] = c := List.dropLast_append_getLast hcne
      have hpc' : pfx c' c := ⟨[bl], hcsplit⟩
      unfold pairsPF codesPF at hPFX
      rw [List.map_cons, List.pairwise_cons] at hPFX
      obtain ⟨hhead, htail⟩ := hPFX
      by_cases hsib : ∃ q ∈ T, pfx c' q.2
      · -- sibling case: merge the parent pair, after moving the two least
        -- weights onto it
        obtain ⟨q, hqT, hq⟩ := hsib
        have hqlen : q.2.length ≤ c.length := hmaxT q hqT
        have hhq := hhead q.2 (List.mem_map_of_mem Prod.snd hqT)
        have hqne' : q.2.length ≠ c'.length := by
          intro hlen0
          have heq : c' = q.2 := pfx_of_eq_length c' q.2 hq (le_of_eq hlen0)
          exact hhq.2 (heq ▸ hpc')
        have hqgec : c'.length ≤ q.2.length := pfx_length _ _ hq
        have hqlenL : q.2.length = c.length := by omega
        obtain ⟨bq, hbq⟩ := pfx_succ_length c' q.2 hq (by omega)
        have hqnec : q.2 ≠ c := by
          intro h
          exact hhq.1 (by rw [h]; exact pfx_refl c)
        have hblbq : bl ≠ bq := by
          intro h
          apply hqnec
          rw [hbq, ← h]
          exact hcsplit
        obtain ⟨R, hT⟩ : ∃ R, List.Perm T (q :: R) := ⟨_, List.perm_cons_erase hqT⟩
        have hRlen : R.length + 1 = T.length := by
          have := hT.length_eq
          simp at this
          omega
        have hX2 : List.Perm P (pm :: q :: R) := hX.trans (hT.cons pm)
        have hmaxR : ∀ r ∈ R, r.2.length ≤ c.length := by
          intro r hr
          exact hmaxT r (hT.mem_iff.mpr (List.mem_cons_of_mem q hr))
        obtain ⟨a, T2, hsnd2, hperm2, hcost2, hmin2, hax⟩ :=
          frontSwap pm (q :: R) (by
            intro r hr
            rcases List.mem_cons.mp hr with rfl | hr
            · exact hqlen
            · exact hmaxR r hr)
        rw [← hc] at hcost2
        cases T2 with
        | nil => simp at hsnd2
        | cons y2 R2 =>
        simp only [List.map_cons] at hsnd2
        injection hsnd2 with hy2snd hR2snd
        obtain ⟨b, R3, hsnd3, hperm3, hcost3, hmin3, hby⟩ :=
          frontSwap y2 R2 (by
            intro r hr
            have hmem2 : r.2 ∈ R2.map Prod.snd := List.mem_map_of_mem Prod.snd hr
            rw [hR2snd] at hmem2
            obtain ⟨r0, hr0, hr0eq⟩ := List.mem_map.mp hmem2
            rw [hy2snd, hqlenL, ← hr0eq]
            exact hmaxR r0 hr0)
        have hab : a ≤ b := by
          have hbmem : b ∈ (y2 :: R2).map Prod.fst :=
            hperm3.symm.mem_iff.mp (.head _)
          exact hmin2 b hbmem
        have haR3 : ∀ v ∈ R3.map Prod.fst, a ≤ v := by
          intro v hv
          have : v ∈ (y2 :: R2).map Prod.fst :=
            hperm3.symm.mem_iff.mp (List.mem_cons_of_mem b hv)
          exact hmin2 v this
        have hsndR : R3.map Prod.snd = R.map Prod.snd := by rw [hsnd3, hR2snd]
        have hheadR : ∀ s ∈ R.map Prod.snd, ¬ pfx c s ∧ ¬ pfx s c := by
          intro s hs
          exact hhead s ((hT.map Prod.snd).mem_iff.mpr (List.mem_cons_of_mem q.2 hs))
        have hPT := ((hT.map Prod.snd).pairwise_iff (fun h => pfxRel_symm h)).mp htail
        rw [List.map_cons, List.pairwise_cons] at hPT
        have hqR : ∀ s ∈ R.map Prod.snd, ¬ pfx q.2 s ∧ ¬ pfx s q.2 := hPT.1
        have hRpw := hPT.2
        have hPF' : pairsPF ((a + b, c') :: R3) := by
          unfold pairsPF codesPF
          rw [List.map_cons, List.pairwise_cons, hsndR]
          refine ⟨?_, hRpw⟩
          intro s hs
          have hsc := hheadR s hs
          have hsq := hqR s hs
          have hslen : s.length ≤ c.length := by
            obtain ⟨r0, hr0, rfl⟩ := List.mem_map.mp hs
            exact hmaxR r0 hr0
          constructor
          · intro hps
            by_cases hsl : s.length ≤ c'.length
            · have heq : c' = s := pfx_of_eq_length c' s hps hsl
              exact hsc.2 (heq ▸ hpc')
            · have hsl2 : s.length = c'.length + 1 := by
                have := pfx_length c' s hps
                omega
              obtain ⟨bs, hbs⟩ := pfx_succ_length c' s hps hsl2
              have hbool : ∀ x y z : Bool, x ≠ y → z ≠ y → x = z := by decide
              have hcase : bs = bl ∨ bs = bq := by
                by_cases hbsl : bs = bl
                · exact Or.inl hbsl
                · exact Or.inr (hbool bs bl bq hbsl (Ne.symm hblbq))
              rcases hcase with h | h
              · have hseq : s = c := by
                  rw [hbs, h]
                  exact hcsplit
                exact hsc.1 (by rw [hseq]; exact pfx_refl c)
              · have hseq : s = q.2 := by
                  rw [hbs, h]
                  exact hbq.symm
                exact hsq.1 (by rw [hseq]; exact pfx_refl q.2)
          · intro hps
            exact hsc.2 (pfx_trans s c' c hps hpc')
        have hR3len : R3.length = R.length := by
          have := congrArg List.length hsndR
          simpa using this
        have hlen' : 2 ≤ ((a + b, c') :: R3).length := by
          simp only [List.length_cons]
          omega
        have hls3 : lenSum R3 = lenSum R := lenSum_eq_of_snd _ _ hsndR
        have hlsP : lenSum P = c.length + (q.2.length + lenSum R) := by
          rw [lenSum_perm _ _ hX2, lenSum_cons, lenSum_cons]
        have hlenSum' : lenSum ((a + b, c') :: R3) ≤ n := by
          rw [lenSum_cons, hls3]
          have hf' : c.length + (q.2.length + lenSum R) ≤ n + 1 := hlsP ▸ hf
          simp only
          omega
        have hIH := ih _ hlenSum' hlen' hPF'
        have hfperm : List.Perm (P.map Prod.fst) (a :: b :: R3.map Prod.fst) :=
          (hX2.map Prod.fst).trans (hperm2.trans (hperm3.cons a))
        have hmswP : msw (P.map Prod.fst) = (a + b) + msw ((a + b) :: R3.map Prod.fst) := by
          rw [msw_congr _ _ hfperm]
          exact msw_merge_min a b _ hab haR3 hmin3
        have hcostX : pairCost P = pairCost (pm :: q :: R) := pairCost_perm _ _ hX2
        have e1 : pairCost ((a + b, c') :: R3) = (a + b) * c'.length + pairCost R3 := by
          simp [pairCost_cons]
        have e2 : (a + b) + (a + b) * c'.length = (a + b) * c.length := by
          rw [← hcplen, Nat.mul_succ]
          omega
        have e3 : (a + b) * c.length = a * c.length + b * c.length := Nat.add_mul a b _
        have e4 : pairCost ((a, c) :: y2 :: R2) = a * c.length + pairCost (y2 :: R2) := by
          simp [pairCost_cons]
        have e5 : pairCost ((b, y2.2) :: R3) = b * y2.2.length + pairCost R3 := by
          simp [pairCost_cons]
        have e6 : b * y2.2.length = b * c.length := by rw [hy2snd, hqlenL]
        have hIH' : msw ((a + b) :: R3.map Prod.fst) ≤ pairCost ((a + b, c') :: R3) := hIH
        omega
      · -- shrink case: drop the last bit of the longest codeword
        push_neg at hsib
        have hPF' : pairsPF ((pm.1, c') :: T) := by
          unfold pairsPF codesPF
          rw [List.map_cons, List.pairwise_cons]
          refine ⟨?_, htail⟩
          intro s hs
          constructor
          · intro hps
            obtain ⟨r0, hr0, rfl⟩ := List.mem_map.mp hs
            exact hsib r0 hr0 hps
          · intro hps
            exact (hhead s hs).2 (pfx_trans s c' c hps hpc')
        have hlen' : 2 ≤ ((pm.1, c') :: T).length := by
          simp only [List.length_cons]
          omega
        have hlsP : lenSum P = c.length + lenSum T := by
          rw [lenSum_perm _ _ hX, lenSum_cons]
        have hlenSum' : lenSum ((pm.1, c') :: T) ≤ n := by
          rw [lenSum_cons]
          have hf' : c.length + lenSum T ≤ n + 1 := hlsP ▸ hf
          simp only
          omega
        have hIH := ih _ hlenSum' hlen' hPF'
        have hmswP : msw (P.map Prod.fst) = msw (pm.1 :: T.map Prod.fst) :=
          msw_congr _ _ (hX.map Prod.fst)
        have e1 : pairCost ((pm.1, c') :: T) = pm.1 * c'.length + pairCost T := by
          simp [pairCost_cons]
        have e2 : pairCost (pm :: T) = pm.1 * c.length + pairCost T := by
          simp [pairCost_cons]
        have e3 : pm.1 * c'.length ≤ pm.1 * c.length :=
          Nat.mul_le_mul_left pm.1 (by omega)
        have hcostX : pairCost P = pairCost (pm :: T) := pairCost_perm _ _ hX
        have hIH' : msw (pm.1 :: T.map Prod.fst) ≤ pairCost ((pm.1, c') :: T) := hIH
        omega
/-! ## Bridging comparison codes given as functions -/

theorem fnCost_eq_pairCost (ctr : List (String × Nat)) (cf : String → List Bool) :
    fnCost ctr cf = pairCost (ctr.map (fun e => (e.2, cf e.1))) := by
  unfold fnCost pairCost
  rw [List.map_map]
  rfl

theorem fsts_pairs (ctr : List (String × Nat)) (cf : String → List Bool) :
    (ctr.map (fun e => (e.2, cf e.1))).map Prod.fst = ctr.map Prod.snd := by
  rw [List.map_map]
  rfl

theorem pairsPF_of_pfxFreeOn (ctr : List (String × Nat)) (cf : String → List Bool)
    (hnd : (ctr.map Prod.fst).Nodup) (hpf : pfxFreeOn (ctr.map Prod.fst) cf) :
    pairsPF (ctr.map (fun e => (e.2, cf e.1))) := by
  unfold pairsPF codesPF
  rw [List.map_map]
  show List.Pairwise _ (ctr.map (fun e => cf e.1))
  have h1 : List.Pairwise (fun e1 e2 : String × Nat => e1.1 ≠ e2.1) ctr :=
    List.pairwise_map.mp hnd
  have h2 : List.Pairwise
      (fun e1 e2 : String × Nat =>
        ¬ pfx (cf e1.1) (cf e2.1) ∧ ¬ pfx (cf e2.1) (cf e1.1)) ctr := by
    refine h1.imp_of_mem ?_
    intro e1 e2 h1m h2m hne12
    exact ⟨hpf e1.1 (List.mem_map_of_mem Prod.fst h1m) e2.1
        (List.mem_map_of_mem Prod.fst h2m) hne12,
      hpf e2.1 (List.mem_map_of_mem Prod.fst h2m) e1.1
        (List.mem_map_of_mem Prod.fst h1m) (Ne.symm hne12)⟩
  exact List.pairwise_map.mpr h2

/-- C8 (amended): for every frequency map with distinct keys, `huffman`
returns a prefix-free table covering exactly the map's keys; when the map
has at least two keys, its frequency-weighted code length is minimal among
all prefix-free codes for the same counts. (For a singleton map the lone
symbol gets the one-bit code `"0"`, which the empty-codeword code beats —
see the counterexample.) -/
theorem claimC8_huffman (ctr : List (String × Nat))
    (hnd : (ctr.map Prod.fst).Nodup) (hne : ctr ≠ []) :
    outPF (Util.huffman ctr) ∧
    List.Perm ((Util.huffman ctr).map Prod.snd) (ctr.map Prod.fst) ∧
    (2 ≤ ctr.length → ∀ cf : String → List Bool,
      pfxFreeOn (ctr.map Prod.fst) cf →
      outCost ctr (Util.huffman ctr) ≤ fnCost ctr cf) := by
  by_cases h2 : 2 ≤ ctr.length
  · obtain ⟨hPF, hkeys, hcost⟩ := huffman_big ctr hnd h2
    refine ⟨hPF, hkeys, ?_⟩
    intro _ cf hpf
    rw [hcost]
    have hfc : fnCost ctr cf = pairCost (ctr.map (fun e => (e.2, cf e.1))) :=
      fnCost_eq_pairCost ctr cf
    have hfst : (ctr.map (fun e => (e.2, cf e.1))).map Prod.fst = ctr.map Prod.snd :=
      fsts_pairs ctr cf
    have hlen : 2 ≤ (ctr.map (fun e => (e.2, cf e.1))).length := by
      rw [List.length_map]
      exact h2
    have hpfp : pairsPF (ctr.map (fun e => (e.2, cf e.1))) :=
      pairsPF_of_pfxFreeOn ctr cf hnd hpf
    have hlb := msw_le_pairCost (lenSum (ctr.map (fun e => (e.2, cf e.1))))
      (ctr.map (fun e => (e.2, cf e.1))) le_rfl hlen hpfp
    rw [hfst] at hlb
    rw [hfc]
    exact hlb
  · have hlp : 0 < ctr.length := List.length_pos.mpr hne
    have h1 : ctr.length = 1 := by omega
    obtain ⟨e, rfl⟩ := List.length_eq_one.mp h1
    have hh : Util.huffman [e] = [([false], e.1)] := rfl
    refine ⟨?_, ?_, ?_⟩
    · rw [hh]
      unfold outPF codesPF
      simp
    · rw [hh]
      simp
    · intro h2'
      exact absurd h2' h2
theorem claimC8_witness :
    outPF (Util.huffman [("a", 2), ("b", 1)]) ∧
    List.Perm ((Util.huffman [("a", 2), ("b", 1)]).map Prod.snd)
      (([("a", 2), ("b", 1)] : List (String × Nat)).map Prod.fst) ∧
    (2 ≤ ([("a", 2), ("b", 1)] : List (String × Nat)).length →
      ∀ cf : String → List Bool,
        pfxFreeOn (([("a", 2), ("b", 1)] : List (String × Nat)).map Prod.fst) cf →
        outCost [("a", 2), ("b", 1)] (Util.huffman [("a", 2), ("b", 1)]) ≤
          fnCost [("a", 2), ("b", 1)] cf) :=
  claimC8_huffman [("a", 2), ("b", 1)] (by decide) (by decide)
